import Mathlib

/-!
# Verification of the identity-reconciliation core

Shallow embedding of the contact-reconciliation service:
* `Database.findContactsByEmailOrPhone`, `Database.getLinkedContacts`,
  `Database.createContact`, `Database.updateContactToSecondary`,
  `Database.updateLinkedContactsPrimary` (src/src/database.ts), and
* `ContactService.identify`, `ContactService.buildConsolidatedContact`
  (the contact-service source file).

The Postgres table is modelled as a list of rows in physical insertion
order (ids are SERIAL, so insertion order is id order), together with
the id sequence counter and the transaction clock `now` used for the
`NOW()` defaults.  Timestamps are natural numbers (`getTime`
comparisons in the source only use their order).  JavaScript string
truthiness (`if (email)`) is modelled by `truthy`, which is false for
the empty string, exactly as in the source.
-/

namespace Identity

inductive LinkPrecedence where
  | primary
  | secondary
deriving DecidableEq, Repr

/-- A row of the `contacts` table (src/src/types.ts `Contact`). -/
structure Contact where
  id : Nat
  phoneNumber : Option String
  email : Option String
  linkedId : Option Nat
  linkPrecedence : LinkPrecedence
  createdAt : Nat
  updatedAt : Nat
  deletedAt : Option Nat
deriving DecidableEq, Repr

/-- The database state: rows in insertion order, the SERIAL counter
(the id the next INSERT receives), and the clock used for `NOW()`. -/
structure Store where
  contacts : List Contact
  nextId : Nat
  now : Nat
deriving DecidableEq, Repr

/-- src/src/types.ts `IdentifyRequest`. -/
structure IdentifyRequest where
  email : Option String
  phoneNumber : Option String
deriving DecidableEq, Repr

/-- src/src/types.ts `ConsolidatedContact` (the typo in the first field
name is kept from the source). -/
structure ConsolidatedContact where
  primaryContatctId : Nat
  emails : List String
  phoneNumbers : List String
  secondaryContactIds : List Nat
deriving DecidableEq, Repr

/-- JavaScript truthiness of an optional string: `undefined`, `null`
and `""` are falsy, every other string is truthy. -/
def truthy : Option String → Bool
  | none => false
  | some s => !(s == "")

/-- The `x || null` idiom from the source: a falsy value becomes null. -/
def orNull (o : Option String) : Option String :=
  if truthy o then o else none

/-- `ORDER BY created_at ASC` comparison (the candidate query orders by
`created_at` only).  All sorts below are `List.insertionSort`, which is
stable, exactly like a Postgres sort over the heap-ordered rows and
like JavaScript `Array.prototype.sort`; since a stable sort by a total
preorder is unique, this models both. -/
def leCreated (a b : Contact) : Prop :=
  a.createdAt ≤ b.createdAt

instance : DecidableRel leCreated := fun a b =>
  inferInstanceAs (Decidable (a.createdAt ≤ b.createdAt))

instance : IsTotal Contact leCreated :=
  ⟨fun a b => Nat.le_total a.createdAt b.createdAt⟩

instance : IsTrans Contact leCreated :=
  ⟨fun _ _ _ hab hbc => Nat.le_trans hab hbc⟩

/-- `ORDER BY created_at ASC, id ASC` comparison (used by the recursive
cluster query). -/
def leCreatedId (a b : Contact) : Prop :=
  a.createdAt < b.createdAt ∨ (a.createdAt = b.createdAt ∧ a.id ≤ b.id)

instance : DecidableRel leCreatedId := fun a b => by
  unfold leCreatedId; infer_instance

instance : IsTotal Contact leCreatedId := ⟨by
  intro a b; unfold leCreatedId; omega⟩

instance : IsTrans Contact leCreatedId := ⟨by
  intro a b c; unfold leCreatedId; omega⟩

/-- The WHERE clause of `findContactsByEmailOrPhone`: conditions are
only emitted for truthy parameters, and SQL `=` on a NULL column is
never satisfied. -/
def matchesQuery (qe qp : Option String) (c : Contact) : Bool :=
  (truthy qe && c.email == qe) || (truthy qp && c.phoneNumber == qp)

/-- `Database.findContactsByEmailOrPhone` (src/src/database.ts:50).
With neither parameter truthy the generated SQL has an empty
parenthesised condition list and the query itself fails.  The query's
`ORDER BY created_at ASC` names a single sort key, so Postgres only
guarantees a `created_at`-non-decreasing order (`possibleFindResult`
below); to keep the engine executable this model fixes one admissible
schedule, the stable sort over insertion order.  Conclusions about the
relative order of rows with equal `created_at` are never drawn from
this choice — they come from `possibleFindResult` or hold under
tie-freeness hypotheses. -/
def findContactsByEmailOrPhone (s : Store) (qe qp : Option String) :
    Except String (List Contact) :=
  if truthy qe || truthy qp then
    .ok ((s.contacts.filter
      (fun c => c.deletedAt.isNone && matchesQuery qe qp c)).insertionSort leCreated)
  else
    .error "syntax error in SQL: empty condition list"

/-- The result lists Postgres may return for the candidate query
(src/src/database.ts:53): `SELECT` of the non-deleted rows matching a
truthy field, then `ORDER BY created_at ASC` with no second sort key —
any permutation of the matching rows that is non-decreasing in
`created_at`.  The relative order of rows with equal `created_at` is
unspecified (a Postgres sort is not stable and heap order is not
insertion order), so every list satisfying this predicate is an
admissible output of the code. -/
def possibleFindResult (s : Store) (qe qp : Option String)
    (l : List Contact) : Prop :=
  l.Perm (s.contacts.filter
    (fun c => c.deletedAt.isNone && matchesQuery qe qp c)) ∧
  l.Pairwise leCreated

instance (s : Store) (qe qp : Option String) (l : List Contact) :
    Decidable (possibleFindResult s qe qp l) := by
  unfold possibleFindResult; infer_instance

/-- One expansion step of the recursive CTE in `getLinkedContacts`
(src/src/database.ts:81): `UNION ALL` of, for every row of the previous
iteration, all non-deleted rows whose `linked_id` equals that row's id. -/
def cteStep (s : Store) (frontier : List Contact) : List Contact :=
  frontier.flatMap
    (fun p => s.contacts.filter
      (fun c => c.deletedAt.isNone && c.linkedId == some p.id))

/-- The base case of the recursive CTE: the non-deleted row with the
given id. -/
def cteBase (s : Store) (rootId : Nat) : List Contact :=
  s.contacts.filter (fun c => c.id == rootId && c.deletedAt.isNone)

/-- The n-th frontier the recursive CTE computes.  The real query
terminates exactly when some frontier is empty. -/
def cteFrontier (s : Store) (rootId : Nat) : Nat → List Contact
  | 0 => cteBase s rootId
  | n + 1 => cteStep s (cteFrontier s rootId n)

/-- Termination of the recursive CTE evaluation: Postgres stops
iterating `UNION ALL` exactly when a working-table iteration produces
no rows. -/
def cteTerminates (s : Store) (rootId : Nat) : Prop :=
  ∃ n, cteFrontier s rootId n = []

/-- Fuel-bounded accumulation of CTE frontiers. -/
def cteRun (s : Store) : Nat → List Contact → List Contact
  | 0, _ => []
  | fuel + 1, frontier => frontier ++ cteRun s fuel (cteStep s frontier)

/-- `Database.getLinkedContacts` (src/src/database.ts:77): the rows the
recursive CTE accumulates, `ORDER BY created_at ASC, id ASC`.  The fuel
`length + 1` is sufficient for every store without a link cycle; the
real query has no bound (see the termination analysis below). -/
def getLinkedContacts (s : Store) (rootId : Nat) : List Contact :=
  (cteRun s (s.contacts.length + 1) (cteBase s rootId)).insertionSort leCreatedId

/-- `Database.createContact` (src/src/database.ts:104): INSERT with the
SERIAL id, `created_at`/`updated_at` defaulting to `NOW()` and
`deleted_at` NULL. -/
def createContact (s : Store) (email phoneNumber : Option String)
    (linkedId : Option Nat) (linkPrecedence : LinkPrecedence) :
    Store × Contact :=
  let c : Contact :=
    { id := s.nextId
      phoneNumber := phoneNumber
      email := email
      linkedId := linkedId
      linkPrecedence := linkPrecedence
      createdAt := s.now
      updatedAt := s.now
      deletedAt := none }
  ({ contacts := s.contacts ++ [c], nextId := s.nextId + 1, now := s.now }, c)

/-- `Database.updateContactToSecondary` (src/src/database.ts:125):
`SET linked_id = $1, link_precedence = 'secondary', updated_at = NOW()
WHERE id = $2`. -/
def updateContactToSecondary (s : Store) (contactId linkedId : Nat) : Store :=
  { s with contacts := s.contacts.map (fun c =>
      if c.id == contactId then
        { c with linkedId := some linkedId
                 linkPrecedence := .secondary
                 updatedAt := s.now }
      else c) }

/-- `Database.updateLinkedContactsPrimary` (src/src/database.ts:139):
`SET linked_id = $1, updated_at = NOW() WHERE linked_id = $2`. -/
def updateLinkedContactsPrimary (s : Store) (oldPrimaryId newPrimaryId : Nat) :
    Store :=
  { s with contacts := s.contacts.map (fun c =>
      if c.linkedId == some oldPrimaryId then
        { c with linkedId := some newPrimaryId, updatedAt := s.now }
      else c) }

/-! ## The consolidation engine (`ContactService`) -/

/-- Insertion into a JavaScript `Set` over numbers: insertion order is
preserved and repeated insertions are ignored. -/
def insertUnique (l : List Nat) (x : Nat) : List Nat :=
  if l.contains x then l else l ++ [x]

/-- The `linkedId` contributions of the secondary candidates: the
source guards with `if (contact.linkedId)`, whose JavaScript truthiness
also rejects the number 0. -/
def truthyLinkedId (c : Contact) : Option Nat :=
  match c.linkedId with
  | some l => if l == 0 then none else some l
  | none => none

/-- Step 3 of `identify`: the distinct owning-primary ids collected
from the candidate set, in `Set` insertion order — first the ids of the
primary candidates, then the `linkedId`s of the secondary candidates. -/
def owningPrimaryIds (existingContacts : List Contact) : List Nat :=
  let primaryContacts :=
    existingContacts.filter (fun c => c.linkPrecedence == .primary)
  let secondaryContacts :=
    existingContacts.filter (fun c => c.linkPrecedence == .secondary)
  (primaryContacts.map (·.id) ++
    secondaryContacts.filterMap truthyLinkedId).foldl insertUnique []

/-- The new-information check shared by the single-primary and merge
branches: `Set(contacts.map(c => c.email).filter(Boolean))` keeps only
truthy (non-null, non-empty) values, and a truthy request value absent
from the set counts as new. -/
def hasNewInfo (email phoneNumber : Option String)
    (cluster : List Contact) : Bool :=
  let existingEmails :=
    (cluster.filterMap (·.email)).filter (fun v => !(v == ""))
  let existingPhones :=
    (cluster.filterMap (·.phoneNumber)).filter (fun v => !(v == ""))
  (truthy email && !existingEmails.contains (email.getD "")) ||
  (truthy phoneNumber && !existingPhones.contains (phoneNumber.getD ""))

/-- The rank the comparator of `buildConsolidatedContact` gives a
precedence: primaries sort before secondaries. -/
def precRank : LinkPrecedence → Nat
  | .primary => 0
  | .secondary => 1

/-- The comparator of `buildConsolidatedContact`'s sort: primaries
before secondaries, otherwise by `createdAt`; `buildLe a b` holds iff
the source comparator returns a non-positive number on `(a, b)`. -/
def buildLe (a b : Contact) : Prop :=
  precRank a.linkPrecedence < precRank b.linkPrecedence ∨
    (precRank a.linkPrecedence = precRank b.linkPrecedence ∧
      a.createdAt ≤ b.createdAt)

instance : DecidableRel buildLe := fun a b => by
  unfold buildLe; infer_instance

instance : IsTotal Contact buildLe := ⟨by
  intro a b; unfold buildLe; omega⟩

instance : IsTrans Contact buildLe := ⟨by
  intro a b c; unfold buildLe; omega⟩

/-- Appending a value to the emitted list when it is truthy and not yet
present (`if (contact.email && !emails.includes(contact.email))`). -/
def pushValue (acc : List String) : Option String → List String
  | none => acc
  | some v => if !(v == "") && !acc.contains v then acc ++ [v] else acc

/-- `ContactService.buildConsolidatedContact`: stable sort putting the
single primary first, then first-seen-wins collection of the truthy
emails and phones, primary values first.  The `find(...)!` non-null
assertion of the source throws when the list has no primary; that path
is the error case. -/
def buildConsolidatedContact (contacts : List Contact) :
    Except String ConsolidatedContact :=
  let sortedContacts := contacts.insertionSort buildLe
  match sortedContacts.find? (fun c => c.linkPrecedence == .primary) with
  | none => .error "TypeError: cannot read properties of undefined"
  | some primaryContact =>
    let secondaryContacts :=
      sortedContacts.filter (fun c => c.linkPrecedence == .secondary)
    let emails :=
      secondaryContacts.foldl (fun acc c => pushValue acc c.email)
        (pushValue [] primaryContact.email)
    let phoneNumbers :=
      secondaryContacts.foldl (fun acc c => pushValue acc c.phoneNumber)
        (pushValue [] primaryContact.phoneNumber)
    .ok { primaryContatctId := primaryContact.id
          emails := emails
          phoneNumbers := phoneNumbers
          secondaryContactIds := secondaryContacts.map (·.id) }

/-- One iteration of the merge loop (lines 80–83 of the service): demote
the absorbed primary, then repoint every contact linked to it. -/
def mergeStep (st : Store) (absorbedId oldestId : Nat) : Store :=
  updateLinkedContactsPrimary
    (updateContactToSecondary st absorbedId oldestId) absorbedId oldestId

/-- The individually auto-committed UPDATE statements the merge loop
issues, in program order: for each absorbed primary first the demotion,
then the relink.  The source opens no transaction around them
(src/src/database.ts:125 and :139 each run on a freshly acquired pooled
client). -/
def mergeWriteOps (oldestId : Nat) (otherPrimaries : List Contact) :
    List (Store → Store) :=
  otherPrimaries.flatMap (fun p =>
    [fun st => updateContactToSecondary st p.id oldestId,
     fun st => updateLinkedContactsPrimary st p.id oldestId])

/-- The store after the first `k` statements of a write sequence have
committed — the state left behind when the invocation fails before the
remaining statements run. -/
def applyOps (k : Nat) (ops : List (Store → Store)) (s : Store) : Store :=
  (ops.take k).foldl (fun st f => f st) s

/-- The shared tail of the single-primary and the merge branch of
`identify` (the two verbatim-identical blocks at service lines 41–61
and 85–105): materialize the cluster of `pid`, and when the observation
carries a truthy value absent from it, create one linked secondary and
include it in the result set. -/
def extendResult (s1 : Store) (email phoneNumber : Option String) (pid : Nat) :
    Store × Except String ConsolidatedContact :=
  if hasNewInfo email phoneNumber (getLinkedContacts s1 pid) then
    ((createContact s1 (orNull email) (orNull phoneNumber)
        (some pid) .secondary).1,
      buildConsolidatedContact (getLinkedContacts s1 pid ++
        [(createContact s1 (orNull email) (orNull phoneNumber)
          (some pid) .secondary).2]))
  else
    (s1, buildConsolidatedContact (getLinkedContacts s1 pid))

/-- `ContactService.identify`.  The result pairs the store as the
invocation leaves it with either the consolidated view or the error the
invocation throws (`Unexpected state in contact identification` for the
zero-owning-primaries fallback, `TypeError` for the non-null assertion
on a cluster without a primary). -/
def identify (s : Store) (req : IdentifyRequest) :
    Store × Except String ConsolidatedContact :=
  let email := req.email
  let phoneNumber := req.phoneNumber
  match findContactsByEmailOrPhone s email phoneNumber with
  | .error e => (s, .error e)
  | .ok existingContacts =>
    if existingContacts.length == 0 then
      let r := createContact s (orNull email) (orNull phoneNumber) none .primary
      (r.1, buildConsolidatedContact [r.2])
    else
      let uniquePrimaryIds := owningPrimaryIds existingContacts
      if uniquePrimaryIds.length == 1 then
        extendResult s email phoneNumber (uniquePrimaryIds.headD 0)
      else if uniquePrimaryIds.length > 1 then
        let groups := uniquePrimaryIds.map (fun pid => getLinkedContacts s pid)
        let roots := groups.filterMap
          (fun g => g.find? (fun c => c.linkPrecedence == .primary))
        if roots.length == groups.length then
          match roots.insertionSort leCreated with
          | [] => (s, .error "TypeError: cannot read properties of undefined")
          | oldestPrimary :: otherPrimaries =>
            extendResult
              (applyOps (2 * otherPrimaries.length)
                (mergeWriteOps oldestPrimary.id otherPrimaries) s)
              email phoneNumber oldestPrimary.id
        else
          (s, .error "TypeError: cannot read properties of undefined")
      else
        (s, .error "Unexpected state in contact identification")

/-- A sequence of `identify` invocations (a merge history), each applied
to the store the previous one left behind. -/
def runHistory (s : Store) : List IdentifyRequest → Store
  | [] => s
  | req :: reqs => runHistory (identify s req).1 reqs

/-! ## Well-formedness of a store

The structural invariants of the data model (§3 of the design):
positive SERIAL ids below the counter, rows in id (= insertion) order,
timestamps no later than the clock, the soft-delete marker unset (this
core never sets it), no empty-string values (the service stores
`x || null`, so an empty string is never written), primaries without a
link, secondaries linked to a primary, and the primary of every cluster
no younger than any of its members. -/

def WF (s : Store) : Prop :=
  0 < s.nextId ∧
  (∀ c ∈ s.contacts,
    0 < c.id ∧ c.id < s.nextId ∧ c.createdAt ≤ s.now ∧ c.deletedAt = none ∧
      c.email ≠ some "" ∧ c.phoneNumber ≠ some "") ∧
  s.contacts.Pairwise (fun a b => a.id < b.id) ∧
  (∀ c ∈ s.contacts, c.linkPrecedence = .primary → c.linkedId = none) ∧
  (∀ c ∈ s.contacts, c.linkPrecedence = .secondary →
    ∃ p ∈ s.contacts, c.linkedId = some p.id ∧ p.linkPrecedence = .primary) ∧
  (∀ p ∈ s.contacts, ∀ c ∈ s.contacts, p.linkPrecedence = .primary →
    c.linkedId = some p.id → p.createdAt ≤ c.createdAt)

instance (s : Store) : Decidable (WF s) := by
  unfold WF; infer_instance

/-- Strict `(createdAt, id)` lexicographic order on contacts — the
order the interface contract promises for returned candidate lists. -/
def lexLT (a b : Contact) : Prop :=
  a.createdAt < b.createdAt ∨ (a.createdAt = b.createdAt ∧ a.id < b.id)

instance (a b : Contact) : Decidable (lexLT a b) := by
  unfold lexLT; infer_instance

/-! ## General list lemmas -/

theorem pair_sublist_of_sorted_mem {l : List Contact}
    (h : l.Pairwise (fun a b => a.id < b.id)) {a b : Contact}
    (ha : a ∈ l) (hb : b ∈ l) (hab : a.id < b.id) : List.Sublist [a, b] l := by
  induction l with
  | nil => cases ha
  | cons x xs ih =>
    rw [List.pairwise_cons] at h
    rcases List.mem_cons.mp ha with rfl | ha'
    · rcases List.mem_cons.mp hb with rfl | hb'
      · exact absurd hab (lt_irrefl _)
      · exact (List.singleton_sublist.mpr hb').cons₂ a
    · rcases List.mem_cons.mp hb with rfl | hb'
      · exact absurd (lt_trans (h.1 a ha') hab) (lt_irrefl _)
      · exact (ih h.2 ha' hb').cons x
  -- same-element pairs contradict irreflexivity through `hab`

theorem sublist_asymm {α : Type _} {l : List α} (hnd : l.Nodup) {a b : α}
    (h1 : List.Sublist [a, b] l) (h2 : List.Sublist [b, a] l) : a = b := by
  induction l with
  | nil => cases h1
  | cons x xs ih =>
    have hx : x ∉ xs := (List.nodup_cons.mp hnd).1
    have hnd' : xs.Nodup := (List.nodup_cons.mp hnd).2
    cases h1 with
    | cons _ h1' =>
      cases h2 with
      | cons _ h2' => exact ih hnd' h1' h2'
      | cons₂ _ h2' => exact absurd (h1'.subset (by simp)) hx
    | cons₂ _ h1' =>
      cases h2 with
      | cons _ h2' => exact absurd (h2'.subset (by simp)) hx
      | cons₂ _ h2' => rfl

theorem filterMap_eq_map_of_some {α β : Type _} {g : α → Option β} {h : α → β}
    {l : List α} (hl : ∀ a ∈ l, g a = some (h a)) :
    l.filterMap g = l.map h := by
  induction l with
  | nil => rfl
  | cons x xs ih =>
    rw [List.filterMap_cons, hl x (List.mem_cons_self x xs), List.map_cons,
      ih (fun a ha => hl a (List.mem_cons_of_mem x ha))]

instance {ε α : Type _} [DecidableEq ε] [DecidableEq α] :
    DecidableEq (Except ε α) := fun a b =>
  match a, b with
  | .error x, .error y =>
    if h : x = y then .isTrue (by rw [h]) else .isFalse (by simp [h])
  | .ok x, .ok y =>
    if h : x = y then .isTrue (by rw [h]) else .isFalse (by simp [h])
  | .error _, .ok _ => .isFalse (by simp)
  | .ok _, .error _ => .isFalse (by simp)

theorem forall₂_map_self {α β : Type _} {R : α → β → Prop} {f : α → β} :
    ∀ {l : List α}, (∀ c ∈ l, R c (f c)) → List.Forall₂ R l (l.map f)
  | [], _ => List.Forall₂.nil
  | x :: xs, h =>
    List.Forall₂.cons (h x (List.mem_cons_self x xs))
      (forall₂_map_self (fun c hc => h c (List.mem_cons_of_mem x hc)))

theorem find?_eq_of_unique {α : Type _} {p : α → Bool} {l : List α} {a : α}
    (ha : a ∈ l) (hpa : p a = true) (huniq : ∀ b ∈ l, p b = true → b = a) :
    l.find? p = some a := by
  induction l with
  | nil => cases ha
  | cons x xs ih =>
    by_cases hx : p x = true
    · rw [List.find?_cons_of_pos _ hx]
      exact congrArg some (huniq x (List.mem_cons_self x xs) hx)
    · rw [List.find?_cons_of_neg _ hx]
      rcases List.mem_cons.mp ha with rfl | ha'
      · exact absurd hpa hx
      · exact ih ha' (fun b hb => huniq b (List.mem_cons_of_mem x hb))

/-! ## C9 — termination of cluster materialization

The source implements materialization as a recursive CTE with
`UNION ALL` and no visited-set guard (src/src/database.ts:81–94):
Postgres iterates until a frontier is empty.  On a store containing a
link cycle the frontiers alternate forever, so the query never
terminates — the guard the specification mandates is absent. -/

/-- A two-element link cycle: each contact's `linked_id` is the other. -/
def cyc1 : Contact := ⟨1, none, some "a", some 2, .secondary, 1, 1, none⟩

def cyc2 : Contact := ⟨2, some "p", none, some 1, .secondary, 2, 2, none⟩

def cycleStore : Store := ⟨[cyc1, cyc2], 3, 10⟩

theorem cteFrontier_cycle : ∀ n, cteFrontier cycleStore 1 n = [cyc1] ∨
    cteFrontier cycleStore 1 n = [cyc2]
  | 0 => .inl rfl
  | n + 1 => by
    rcases cteFrontier_cycle n with h | h
    · right
      show cteStep cycleStore (cteFrontier cycleStore 1 n) = [cyc2]
      rw [h]; rfl
    · left
      show cteStep cycleStore (cteFrontier cycleStore 1 n) = [cyc1]
      rw [h]; rfl

/-- C9: the claim says cluster materialization terminates for every
store state, including link cycles, via an iterative visited-set guard.
The recursive CTE of `getLinkedContacts` has no such guard: on the
two-element link cycle `cycleStore` no CTE iteration ever produces an
empty frontier, so the query loops forever.  (The bounded model
`getLinkedContacts` used elsewhere truncates at `length + 1` frontiers,
which coincides with the query on every cycle-free store.) -/
theorem materialize_cte_diverges_on_cycle : ¬ cteTerminates cycleStore 1 := by
  rintro ⟨n, hn⟩
  rcases cteFrontier_cycle n with h | h <;> rw [h] at hn <;> simp at hn

/-! ## C7 — consistency error on zero owning primaries -/

theorem identify_zero_owning_eq (s : Store) (req : IdentifyRequest)
    (l : List Contact)
    (hfind : findContactsByEmailOrPhone s req.email req.phoneNumber = .ok l)
    (hne : l ≠ [])
    (hzero : owningPrimaryIds l = []) :
    identify s req = (s, .error "Unexpected state in contact identification") := by
  have hlen : (l.length == 0) = false := by
    simp only [beq_eq_false_iff_ne, ne_eq, List.length_eq_zero]
    exact hne
  simp only [identify]
  rw [hfind]
  simp [hzero, hlen]

/-- C7: whenever the candidate lookup succeeds with a non-empty list
that resolves to zero owning primary ids, `identify` throws the
`Unexpected state` error and returns the store untouched — the error is
raised before any write. -/
theorem identify_consistency_error (s : Store) (req : IdentifyRequest)
    (l : List Contact)
    (hfind : findContactsByEmailOrPhone s req.email req.phoneNumber = .ok l)
    (hne : l ≠ [])
    (hzero : owningPrimaryIds l = []) :
    identify s req = (s, .error "Unexpected state in contact identification") :=
  identify_zero_owning_eq s req l hfind hne hzero

/-- An orphaned secondary (null `linked_id`) matching the request: a
non-empty candidate set contributing no owning primary id. -/
def orphanContact : Contact := ⟨1, none, some "a", none, .secondary, 1, 1, none⟩

def orphanStore : Store := ⟨[orphanContact], 2, 10⟩

def orphanReq : IdentifyRequest := ⟨some "a", none⟩

theorem identify_consistency_error_witness :
    identify orphanStore orphanReq =
      (orphanStore, .error "Unexpected state in contact identification") :=
  identify_consistency_error orphanStore orphanReq [orphanContact] rfl
    (by decide) rfl

/-! ## C5 — atomicity of the merge writes

The merge loop issues its UPDATE statements on separately acquired
pooled connections with no enclosing transaction
(src/src/database.ts:125–150), so each statement commits on its own.
`applyOps k` is the store left behind when the invocation dies after
the first `k` statements. -/

def tornA : Contact := ⟨1, none, some "a", none, .primary, 1, 1, none⟩

def tornB : Contact := ⟨2, some "p", none, none, .primary, 2, 2, none⟩

def tornC : Contact := ⟨3, some "q", none, some 2, .secondary, 3, 3, none⟩

def tornStore : Store := ⟨[tornA, tornB, tornC], 4, 10⟩

def tornReq : IdentifyRequest := ⟨some "a", some "p"⟩

/-- C5: the claim says every failed invocation leaves the store either
unchanged or fully merged.  On `tornStore` (two clusters bridged by the
request) the merge issues two UPDATE statements; failing after the
first leaves a state that is neither: the absorbed primary `tornB` is
already demoted while its child `tornC` still links to it — a committed
partial merge (and a secondary linking to a secondary). -/
theorem merge_writes_not_atomic :
    WF tornStore ∧
    (identify tornStore tornReq).1 =
      applyOps 2 (mergeWriteOps 1 [tornB]) tornStore ∧
    applyOps 1 (mergeWriteOps 1 [tornB]) tornStore ≠ tornStore ∧
    applyOps 1 (mergeWriteOps 1 [tornB]) tornStore ≠
      applyOps 2 (mergeWriteOps 1 [tornB]) tornStore ∧
    (applyOps 1 (mergeWriteOps 1 [tornB]) tornStore).contacts.map
        (fun c => (c.id, c.linkedId, c.linkPrecedence)) =
      [(1, none, .primary), (2, some 1, .secondary), (3, some 2, .secondary)] :=
  ⟨by decide, by decide, by decide, by decide, by decide⟩

/-! ## C10 — frame conditions of the mutation primitives -/

/-- C10: `updateContactToSecondary` rewrites only the target row's
precedence, link and `updated_at` (every row keeps its id, email,
phone, `created_at` and `deleted_at`, and non-target rows are untouched);
`updateLinkedContactsPrimary` rewrites only the link and `updated_at`
of rows linked to the old primary; and `createContact` appends one row
with `deleted_at` unset, touching nothing else — no operation ever sets
the soft-delete marker. -/
theorem mutation_frame_conditions (s : Store) (cid lid oldP newP : Nat)
    (e p : Option String) (li : Option Nat) (pr : LinkPrecedence) :
    List.Forall₂ (fun c c' => c'.id = c.id ∧ c'.email = c.email ∧
        c'.phoneNumber = c.phoneNumber ∧ c'.createdAt = c.createdAt ∧
        c'.deletedAt = c.deletedAt ∧ (c.id ≠ cid → c' = c))
      s.contacts (updateContactToSecondary s cid lid).contacts ∧
    List.Forall₂ (fun c c' => c'.id = c.id ∧ c'.email = c.email ∧
        c'.phoneNumber = c.phoneNumber ∧ c'.createdAt = c.createdAt ∧
        c'.deletedAt = c.deletedAt ∧ c'.linkPrecedence = c.linkPrecedence ∧
        (c.linkedId ≠ some oldP → c' = c))
      s.contacts (updateLinkedContactsPrimary s oldP newP).contacts ∧
    (createContact s e p li pr).1.contacts =
      s.contacts ++ [(createContact s e p li pr).2] ∧
    (createContact s e p li pr).2.deletedAt = none := by
  refine ⟨?_, ?_, rfl, rfl⟩
  · exact forall₂_map_self (fun c _ => by
      by_cases h : c.id = cid <;> simp [h])
  · exact forall₂_map_self (fun c _ => by
      by_cases h : c.linkedId = some oldP <;> simp [h])

/-! ## C8 — the candidate query -/

theorem id_inj_of_pairwise {l : List Contact}
    (h : l.Pairwise (fun a b => a.id < b.id)) :
    ∀ a ∈ l, ∀ b ∈ l, a.id = b.id → a = b := by
  induction l with
  | nil => intro a ha; cases ha
  | cons x xs ih =>
    rw [List.pairwise_cons] at h
    intro a ha b hb heq
    rcases List.mem_cons.mp ha with rfl | ha'
    · rcases List.mem_cons.mp hb with rfl | hb'
      · rfl
      · exact absurd (heq ▸ h.1 b hb') (lt_irrefl _)
    · rcases List.mem_cons.mp hb with rfl | hb'
      · exact absurd (heq ▸ h.1 a ha') (lt_irrefl _)
      · exact ih h.2 a ha' b hb' heq

/-- A store exercising the tie (ids 1 and 2 both match and share
`createdAt = 5`) and the deletion filter (id 3 matches but is
soft-deleted). -/
def cand1 : Contact := ⟨1, none, some "a", none, .primary, 5, 5, none⟩

def cand2 : Contact := ⟨2, some "p", none, none, .primary, 5, 5, none⟩

def cand3 : Contact := ⟨3, none, some "a", none, .primary, 4, 4, some 9⟩

def candStore : Store := ⟨[cand1, cand2, cand3], 4, 10⟩

/-- C8 counterexample: in `candStore` both matching rows share
`createdAt = 5`, and the SQL orders by `created_at` alone
(database.ts:67), so `[cand2, cand1]` is an admissible result of the
query — yet it violates the `(createdAt, id)` ascending order the
claim promises for every returned list. -/
theorem findCandidates_order_counterexample :
    possibleFindResult candStore (some "a") (some "p") [cand2, cand1] ∧
    ¬ List.Pairwise lexLT [cand2, cand1] := by
  decide

/-- C8 (amended): with at least one query field truthy, the candidate
query succeeds and every result list the SQL admits consists of exactly
the non-deleted rows whose email equals the given email or whose phone
equals the given phone, non-decreasing in `createdAt`; the relative
order of rows with equal `createdAt` is unspecified, and whenever the
returned rows have pairwise-distinct `createdAt` the order is fully
determined and is the claimed strict `(createdAt, id)` order.  The
executable model's output is itself one admissible result. -/
theorem findCandidates_amended (s : Store) (qe qp : Option String)
    (l : List Contact)
    (hq : truthy qe = true ∨ truthy qp = true)
    (hl : possibleFindResult s qe qp l) :
    (∃ l₀, findContactsByEmailOrPhone s qe qp = .ok l₀ ∧
      possibleFindResult s qe qp l₀) ∧
    (∀ c, c ∈ l ↔ c ∈ s.contacts ∧ c.deletedAt = none ∧
      ((truthy qe = true ∧ c.email = qe) ∨
       (truthy qp = true ∧ c.phoneNumber = qp))) ∧
    (l.Pairwise (fun a b => a.createdAt ≠ b.createdAt) →
      l.Pairwise lexLT) := by
  have hcond : (truthy qe || truthy qp) = true := by
    rcases hq with h | h <;> simp [h]
  set fl := s.contacts.filter
    (fun c => c.deletedAt.isNone && matchesQuery qe qp c) with hfl
  refine ⟨⟨fl.insertionSort leCreated, ?_, ?_⟩, ?_, ?_⟩
  · unfold findContactsByEmailOrPhone
    rw [if_pos hcond]
  · exact ⟨List.perm_insertionSort leCreated fl,
      List.sorted_insertionSort leCreated fl⟩
  · intro c
    rw [hl.1.mem_iff, List.mem_filter]
    simp only [Bool.and_eq_true, Option.isNone_iff_eq_none, matchesQuery,
      Bool.or_eq_true, beq_iff_eq, and_assoc]
  · intro hdis
    exact (hl.2.and hdis).imp
      (fun hab => Or.inl (lt_of_le_of_ne hab.1 hab.2))

/-- Witness for C8: `[cand1, cand2]` is an admissible result at
`candStore`; the amended theorem characterises its members. -/
theorem findCandidates_amended_witness :
    (truthy (some "a") = true ∨ truthy (some "p") = true) ∧
    possibleFindResult candStore (some "a") (some "p") [cand1, cand2] ∧
    (∀ c, c ∈ [cand1, cand2] ↔ c ∈ candStore.contacts ∧
      c.deletedAt = none ∧
      ((truthy (some "a") = true ∧ c.email = some "a") ∨
       (truthy (some "p") = true ∧ c.phoneNumber = some "p"))) :=
  ⟨Or.inl (by decide), by decide,
    (findCandidates_amended candStore (some "a") (some "p") [cand1, cand2]
      (Or.inl (by decide)) (by decide)).2.1⟩

/-! ## Store well-formedness projections and basic consequences -/

theorem WF.nextId_pos {s : Store} (h : WF s) : 0 < s.nextId := h.1

theorem WF.basics {s : Store} (h : WF s) : ∀ c ∈ s.contacts,
    0 < c.id ∧ c.id < s.nextId ∧ c.createdAt ≤ s.now ∧ c.deletedAt = none ∧
      c.email ≠ some "" ∧ c.phoneNumber ≠ some "" := h.2.1

theorem WF.idsSorted {s : Store} (h : WF s) :
    s.contacts.Pairwise (fun a b => a.id < b.id) := h.2.2.1

theorem WF.primaryNoLink {s : Store} (h : WF s) :
    ∀ c ∈ s.contacts, c.linkPrecedence = .primary → c.linkedId = none :=
  h.2.2.2.1

theorem WF.linkToPrimary {s : Store} (h : WF s) :
    ∀ c ∈ s.contacts, c.linkPrecedence = .secondary →
      ∃ p ∈ s.contacts, c.linkedId = some p.id ∧ p.linkPrecedence = .primary :=
  h.2.2.2.2.1

theorem WF.primaryEarliest {s : Store} (h : WF s) :
    ∀ p ∈ s.contacts, ∀ c ∈ s.contacts, p.linkPrecedence = .primary →
      c.linkedId = some p.id → p.createdAt ≤ c.createdAt :=
  h.2.2.2.2.2

theorem WF.id_inj {s : Store} (h : WF s) :
    ∀ a ∈ s.contacts, ∀ b ∈ s.contacts, a.id = b.id → a = b :=
  id_inj_of_pairwise h.idsSorted

/-- `SELECT ... WHERE id = $1`: the first (and only) row with a given id. -/
def contactById (s : Store) (i : Nat) : Option Contact :=
  s.contacts.find? (fun c => c.id == i)

theorem contactById_eq {s : Store} (h : WF s) {c : Contact}
    (hc : c ∈ s.contacts) : contactById s c.id = some c := by
  unfold contactById
  exact find?_eq_of_unique hc (by simp)
    (fun b hb hpb => h.id_inj b hb c hc (by simpa using hpb))

/-! ## The cluster a recursive-CTE materialization returns, under `WF` -/

theorem cteRun_nil (s : Store) : ∀ fuel, cteRun s fuel [] = []
  | 0 => rfl
  | fuel + 1 => by
    show [] ++ cteRun s fuel (cteStep s []) = []
    rw [List.nil_append]
    exact cteRun_nil s fuel

/-- The direct children of a cluster root: the non-deleted rows linked
to it (the second CTE frontier). -/
def childrenOf (s : Store) (pid : Nat) : List Contact :=
  s.contacts.filter (fun c => c.deletedAt.isNone && c.linkedId == some pid)

theorem cteStep_singleton (s : Store) (p : Contact) :
    cteStep s [p] = childrenOf s p.id := by
  simp [cteStep, childrenOf]

theorem filter_id_unique : ∀ {l : List Contact},
    l.Pairwise (fun a b => a.id < b.id) →
    (∀ c ∈ l, c.deletedAt = none) → ∀ {p : Contact}, p ∈ l →
    l.filter (fun c => c.id == p.id && c.deletedAt.isNone) = [p] := by
  intro l
  induction l with
  | nil => intro _ _ p hp; cases hp
  | cons x xs ih =>
    intro hpw hdel p hp
    rw [List.pairwise_cons] at hpw
    rcases List.mem_cons.mp hp with rfl | hp'
    · rw [List.filter_cons_of_pos
        (by simp [hdel p (List.mem_cons_self p xs)])]
      have hnil : xs.filter (fun c => c.id == p.id && c.deletedAt.isNone) = [] := by
        rw [List.filter_eq_nil_iff]
        intro c hc
        have := hpw.1 c hc
        simp only [Bool.and_eq_true, beq_iff_eq, not_and]
        omega
      rw [hnil]
    · rw [List.filter_cons_of_neg (by
        have := hpw.1 p hp'
        simp only [Bool.and_eq_true, beq_iff_eq, not_and]
        omega)]
      exact ih hpw.2 (fun c hc => hdel c (List.mem_cons_of_mem x hc)) hp'

theorem cteBase_eq {s : Store} (h : WF s) {p : Contact} (hp : p ∈ s.contacts) :
    cteBase s p.id = [p] :=
  filter_id_unique h.idsSorted (fun c hc => (h.basics c hc).2.2.2.1) hp

theorem children_secondary {s : Store} (h : WF s) {p : Contact}
    (_hp : p ∈ s.contacts) {c : Contact} (hc : c ∈ s.contacts)
    (hlink : c.linkedId = some p.id) : c.linkPrecedence = .secondary := by
  cases hprec : c.linkPrecedence with
  | secondary => rfl
  | primary =>
    have := h.primaryNoLink c hc hprec
    rw [this] at hlink
    cases hlink

theorem link_target_primary {s : Store} (h : WF s) {q : Contact}
    (hq : q ∈ s.contacts) {c : Contact} (hc : c ∈ s.contacts)
    (hlink : c.linkedId = some q.id) : q.linkPrecedence = .primary := by
  have hcsec : c.linkPrecedence = .secondary := by
    cases hprec : c.linkPrecedence with
    | secondary => rfl
    | primary =>
      have := h.primaryNoLink c hc hprec
      rw [this] at hlink
      cases hlink
  obtain ⟨pr, hpr, hprl, hprp⟩ := h.linkToPrimary c hc hcsec
  rw [hlink] at hprl
  have : q = pr := h.id_inj q hq pr hpr (by injection hprl)
  rw [this]
  exact hprp

theorem cteStep_children_nil {s : Store} (h : WF s) {p : Contact}
    (hp : p ∈ s.contacts) (_hprim : p.linkPrecedence = .primary) :
    cteStep s (childrenOf s p.id) = [] := by
  unfold cteStep
  rw [List.flatMap_eq_nil_iff]
  intro q hq
  rw [List.filter_eq_nil_iff]
  intro c hc
  simp only [Bool.and_eq_true, beq_iff_eq, Option.isNone_iff_eq_none, not_and]
  intro _ hlink
  have hq' := List.mem_filter.mp hq
  have hqmem : q ∈ s.contacts := hq'.1
  have hqlink : q.linkedId = some p.id := by
    have := hq'.2
    simp only [Bool.and_eq_true, beq_iff_eq] at this
    exact this.2
  have h1 : q.linkPrecedence = .secondary := children_secondary h hp hqmem hqlink
  have h2 : q.linkPrecedence = .primary := link_target_primary h hqmem hc hlink
  rw [h1] at h2
  cases h2

theorem cteRun_cluster {s : Store} (h : WF s) {p : Contact}
    (hp : p ∈ s.contacts) (hprim : p.linkPrecedence = .primary) :
    cteRun s (s.contacts.length + 1) (cteBase s p.id) = p :: childrenOf s p.id := by
  rw [cteBase_eq h hp]
  cases hlen : s.contacts.length with
  | zero =>
    exact absurd hp (by rw [List.length_eq_zero] at hlen; rw [hlen]; simp)
  | succ k =>
    show [p] ++ cteRun s (k + 1) (cteStep s [p]) = p :: childrenOf s p.id
    rw [cteStep_singleton]
    show [p] ++ (childrenOf s p.id ++
      cteRun s k (cteStep s (childrenOf s p.id))) = p :: childrenOf s p.id
    rw [cteStep_children_nil h hp hprim, cteRun_nil, List.append_nil]
    rfl

theorem getLinkedContacts_eq {s : Store} (h : WF s) {p : Contact}
    (hp : p ∈ s.contacts) (hprim : p.linkPrecedence = .primary) :
    getLinkedContacts s p.id =
      (p :: childrenOf s p.id).insertionSort leCreatedId := by
  unfold getLinkedContacts
  rw [cteRun_cluster h hp hprim]

theorem mem_getLinkedContacts {s : Store} (h : WF s) {p : Contact}
    (hp : p ∈ s.contacts) (hprim : p.linkPrecedence = .primary) {c : Contact} :
    c ∈ getLinkedContacts s p.id ↔
      c = p ∨ (c ∈ s.contacts ∧ c.linkedId = some p.id) := by
  rw [getLinkedContacts_eq h hp hprim, List.mem_insertionSort, List.mem_cons]
  constructor
  · rintro (rfl | hc)
    · exact Or.inl rfl
    · have := List.mem_filter.mp hc
      refine Or.inr ⟨this.1, ?_⟩
      have := this.2
      simp only [Bool.and_eq_true, beq_iff_eq] at this
      exact this.2
  · rintro (rfl | ⟨hc, hlink⟩)
    · exact Or.inl rfl
    · refine Or.inr (List.mem_filter.mpr ⟨hc, ?_⟩)
      simp [hlink, (h.basics c hc).2.2.2.1]

theorem cluster_sub {s : Store} (h : WF s) {p : Contact}
    (hp : p ∈ s.contacts) (hprim : p.linkPrecedence = .primary) {c : Contact}
    (hc : c ∈ getLinkedContacts s p.id) : c ∈ s.contacts := by
  rcases (mem_getLinkedContacts h hp hprim).mp hc with rfl | ⟨hc', _⟩
  · exact hp
  · exact hc'

theorem cluster_unique_primary {s : Store} (h : WF s) {p : Contact}
    (hp : p ∈ s.contacts) (hprim : p.linkPrecedence = .primary) {c : Contact}
    (hc : c ∈ getLinkedContacts s p.id)
    (hcp : c.linkPrecedence = .primary) : c = p := by
  rcases (mem_getLinkedContacts h hp hprim).mp hc with rfl | ⟨hc', hlink⟩
  · rfl
  · have := children_secondary h hp hc' hlink
    rw [this] at hcp
    cases hcp

theorem cluster_find_primary {s : Store} (h : WF s) {p : Contact}
    (hp : p ∈ s.contacts) (hprim : p.linkPrecedence = .primary) :
    (getLinkedContacts s p.id).find?
      (fun c => c.linkPrecedence == .primary) = some p := by
  apply find?_eq_of_unique
  · exact (mem_getLinkedContacts h hp hprim).mpr (Or.inl rfl)
  · simp [hprim]
  · intro b hb hpb
    exact cluster_unique_primary h hp hprim hb (by simpa using hpb)

/-! ## Owning-primary resolution under `WF` -/

theorem mem_insertUnique (acc : List Nat) (y x : Nat) :
    x ∈ insertUnique acc y ↔ x ∈ acc ∨ x = y := by
  unfold insertUnique
  by_cases h : acc.contains y
  · rw [if_pos h]
    have hy : y ∈ acc := by simpa using h
    constructor
    · exact Or.inl
    · rintro (hx | rfl)
      exacts [hx, hy]
  · rw [if_neg h]
    simp

theorem nodup_insertUnique (acc : List Nat) (y : Nat) (h : acc.Nodup) :
    (insertUnique acc y).Nodup := by
  unfold insertUnique
  by_cases hc : acc.contains y
  · rw [if_pos hc]
    exact h
  · rw [if_neg hc]
    have hy : y ∉ acc := by simpa using hc
    simp [List.nodup_append, h, hy]

theorem foldl_insertUnique_mem : ∀ (l acc : List Nat) (x : Nat),
    x ∈ l.foldl insertUnique acc ↔ x ∈ acc ∨ x ∈ l
  | [], acc, x => by simp
  | y :: ys, acc, x => by
    rw [List.foldl_cons, foldl_insertUnique_mem ys, mem_insertUnique,
      List.mem_cons]
    tauto

theorem foldl_insertUnique_nodup : ∀ (l acc : List Nat), acc.Nodup →
    (l.foldl insertUnique acc).Nodup
  | [], _, h => h
  | y :: ys, acc, h =>
    foldl_insertUnique_nodup ys _ (nodup_insertUnique acc y h)

theorem owningPrimaryIds_nodup (l : List Contact) :
    (owningPrimaryIds l).Nodup :=
  foldl_insertUnique_nodup _ [] List.nodup_nil

theorem truthyLinkedId_some {c : Contact} {pid : Nat}
    (h : truthyLinkedId c = some pid) : c.linkedId = some pid := by
  unfold truthyLinkedId at h
  cases hl : c.linkedId with
  | none => rw [hl] at h; cases h
  | some v =>
    rw [hl] at h
    have h' : (if (v == 0) = true then (none : Option Nat) else some v) =
        some pid := h
    by_cases hv : (v == 0) = true
    · rw [if_pos hv] at h'; cases h'
    · rw [if_neg hv] at h'
      injection h' with h'
      rw [h']

/-- Every owning-primary id resolved in step 3 is, in a well-formed
store, the id of a stored primary contact. -/
theorem owning_id_primary {s : Store} (h : WF s) {l : List Contact}
    (hsub : ∀ c ∈ l, c ∈ s.contacts) {pid : Nat}
    (hpid : pid ∈ owningPrimaryIds l) :
    ∃ q ∈ s.contacts, q.id = pid ∧ q.linkPrecedence = .primary := by
  unfold owningPrimaryIds at hpid
  rw [foldl_insertUnique_mem] at hpid
  rcases hpid with hpid | hpid
  · cases hpid
  rcases List.mem_append.mp hpid with hpid | hpid
  · obtain ⟨c, hc, hcid⟩ := List.mem_map.mp hpid
    have hcf := List.mem_filter.mp hc
    exact ⟨c, hsub c hcf.1, hcid, by simpa using hcf.2⟩
  · obtain ⟨c, hc, hcl⟩ := List.mem_filterMap.mp hpid
    have hcf := List.mem_filter.mp hc
    have hcmem : c ∈ s.contacts := hsub c hcf.1
    have hcsec : c.linkPrecedence = .secondary := by simpa using hcf.2
    obtain ⟨pr, hpr, hprl, hprp⟩ := h.linkToPrimary c hcmem hcsec
    have : c.linkedId = some pid := truthyLinkedId_some hcl
    rw [this] at hprl
    exact ⟨pr, hpr, by injection hprl with h'; rw [h'], hprp⟩

/-- The candidate list returned by a successful lookup draws only from
the store. -/
theorem candidates_sub {s : Store} {qe qp : Option String} {l : List Contact}
    (hfind : findContactsByEmailOrPhone s qe qp = .ok l) :
    ∀ c ∈ l, c ∈ s.contacts := by
  unfold findContactsByEmailOrPhone at hfind
  by_cases hq : (truthy qe || truthy qp) = true
  · rw [if_pos hq] at hfind
    injection hfind with hfind
    intro c hc
    rw [← hfind] at hc
    exact (List.mem_filter.mp ((List.mem_insertionSort leCreated).mp hc)).1
  · rw [if_neg hq] at hfind
    cases hfind

/-! ## Branch lemmas for `identify` -/

theorem identify_empty (s : Store) (req : IdentifyRequest)
    (hfind : findContactsByEmailOrPhone s req.email req.phoneNumber = .ok []) :
    identify s req =
      (let r := createContact s (orNull req.email) (orNull req.phoneNumber)
        none .primary
       (r.1, buildConsolidatedContact [r.2])) := by
  simp only [identify]
  rw [hfind]
  rfl

theorem identify_single (s : Store) (req : IdentifyRequest)
    {l : List Contact} {pid : Nat}
    (hfind : findContactsByEmailOrPhone s req.email req.phoneNumber = .ok l)
    (hne : l ≠ [])
    (hown : owningPrimaryIds l = [pid]) :
    identify s req = extendResult s req.email req.phoneNumber pid := by
  have hlen : (l.length == 0) = false := by
    simp only [beq_eq_false_iff_ne, ne_eq, List.length_eq_zero]
    exact hne
  simp only [identify]
  rw [hfind]
  simp [hlen, hown]

theorem identify_merge (s : Store) (req : IdentifyRequest)
    {l : List Contact} {oldest : Contact} {others roots : List Contact}
    (hfind : findContactsByEmailOrPhone s req.email req.phoneNumber = .ok l)
    (hne : l ≠ [])
    (hlen2 : 1 < (owningPrimaryIds l).length)
    (hroots : ((owningPrimaryIds l).map
        (fun pid => getLinkedContacts s pid)).filterMap
        (fun g => g.find? (fun c => c.linkPrecedence == .primary)) = roots)
    (hrlen : roots.length = (owningPrimaryIds l).length)
    (hsort : roots.insertionSort leCreated = oldest :: others) :
    identify s req =
      extendResult
        (applyOps (2 * others.length) (mergeWriteOps oldest.id others) s)
        req.email req.phoneNumber oldest.id := by
  have hlen : (l.length == 0) = false := by
    simp only [beq_eq_false_iff_ne, ne_eq, List.length_eq_zero]
    exact hne
  have hone : ((owningPrimaryIds l).length == 1) = false := by
    simp only [beq_eq_false_iff_ne, ne_eq]
    omega
  simp only [identify]
  rw [hfind]
  simp only [hlen, Bool.false_eq_true, if_false, hone, hroots]
  rw [if_pos hlen2, if_pos (by simp [hrlen]), hsort]

/-! ## The net effect of the merge loop

Each absorbed primary is demoted and its children repointed; because
the absorbed primaries are distinct primaries (no links) and the
survivor is none of them, the sequential UPDATE statements amount to
one pointwise rewrite of the table. -/

/-- The row rewrite the whole merge loop performs: absorbed primaries
(ids in `idsL`) become secondaries of the survivor; rows linked to an
absorbed primary are repointed to the survivor; everything else is
untouched. -/
def rewriteOne (now oldId : Nat) (idsL : List Nat) (c : Contact) : Contact :=
  if idsL.contains c.id then
    { c with linkedId := some oldId
             linkPrecedence := .secondary
             updatedAt := now }
  else if (match c.linkedId with
           | some v => idsL.contains v
           | none => false) then
    { c with linkedId := some oldId, updatedAt := now }
  else c

/-- The store after the merge loop, as a pointwise rewrite. -/
def mergedStore (s : Store) (oldId : Nat) (idsL : List Nat) : Store :=
  { s with contacts := s.contacts.map (rewriteOne s.now oldId idsL) }

theorem rewriteOne_id (now oldId : Nat) (idsL : List Nat) (c : Contact) :
    (rewriteOne now oldId idsL c).id = c.id ∧
    (rewriteOne now oldId idsL c).email = c.email ∧
    (rewriteOne now oldId idsL c).phoneNumber = c.phoneNumber ∧
    (rewriteOne now oldId idsL c).createdAt = c.createdAt ∧
    (rewriteOne now oldId idsL c).deletedAt = c.deletedAt := by
  unfold rewriteOne
  split
  · exact ⟨rfl, rfl, rfl, rfl, rfl⟩
  · split
    · exact ⟨rfl, rfl, rfl, rfl, rfl⟩
    · exact ⟨rfl, rfl, rfl, rfl, rfl⟩

theorem rewriteOne_nil (now oldId : Nat) (c : Contact) :
    rewriteOne now oldId [] c = c := by
  cases hl : c.linkedId with
  | none => simp [rewriteOne, hl]
  | some v => simp [rewriteOne, hl]

/-- One iteration of the merge loop — demote `pid` to the survivor,
then repoint everything linked to `pid` — is the pointwise rewrite for
the singleton id list. -/
theorem demote_relink_eq (s : Store) (pid oldId : Nat) (hne : oldId ≠ pid) :
    updateLinkedContactsPrimary (updateContactToSecondary s pid oldId)
      pid oldId =
      { s with contacts := s.contacts.map (rewriteOne s.now oldId [pid]) } := by
  unfold updateLinkedContactsPrimary updateContactToSecondary
  simp only [List.map_map]
  congr 1
  apply List.map_congr_left
  intro c _
  simp only [Function.comp_apply]
  by_cases h1 : c.id = pid
  · cases hl : c.linkedId with
    | none => simp [rewriteOne, h1, hl, Ne.symm hne]
    | some v => simp [rewriteOne, h1, hl, Ne.symm hne]
  · cases hl : c.linkedId with
    | none => simp [rewriteOne, h1, hl]
    | some v =>
      by_cases h2 : v = pid
      · simp [rewriteOne, h1, hl, h2]
      · simp [rewriteOne, h1, hl, h2]

/-- Composing the singleton rewrite for the first absorbed primary with
the rewrite for the remaining ones gives the rewrite for all of them,
for any row of a store in which the remaining absorbed ids belong to
link-free (primary) rows. -/
theorem rewriteOne_comp {now oldId pid : Nat} {restIds : List Nat}
    {c : Contact}
    (hold : oldId ≠ pid ∧ oldId ∉ restIds)
    (hpid : pid ∉ restIds)
    (hcase1 : c.id ∈ restIds → c.linkedId = none) :
    rewriteOne now oldId restIds (rewriteOne now oldId [pid] c) =
      rewriteOne now oldId (pid :: restIds) c := by
  by_cases h1 : c.id = pid
  · have e1 : rewriteOne now oldId [pid] c =
        { c with linkedId := some oldId
                 linkPrecedence := .secondary
                 updatedAt := now } := by
      simp [rewriteOne, h1]
    rw [e1]
    have h2 : c.id ∉ restIds := h1 ▸ hpid
    simp [rewriteOne, h1, h2, hold.2]
  · by_cases h2 : c.id ∈ restIds
    · have e1 : rewriteOne now oldId [pid] c = c := by
        have hln := hcase1 h2
        simp [rewriteOne, h1, hln]
      rw [e1]
      simp [rewriteOne, h1, h2]
    · cases hl : c.linkedId with
      | none =>
        have e1 : rewriteOne now oldId [pid] c = c := by
          simp [rewriteOne, h1, hl]
        rw [e1]
        simp [rewriteOne, h1, h2, hl]
      | some v =>
        by_cases hv : v = pid
        · have e1 : rewriteOne now oldId [pid] c =
              { c with linkedId := some oldId, updatedAt := now } := by
            simp [rewriteOne, h1, hl, hv]
          rw [e1]
          simp [rewriteOne, h1, h2, hold.2, hv, hl]
        · have e1 : rewriteOne now oldId [pid] c = c := by
            simp [rewriteOne, h1, hl, hv]
          rw [e1]
          by_cases hvr : v ∈ restIds
          · simp [rewriteOne, h1, h2, hl, hv, hvr]
          · simp [rewriteOne, h1, h2, hl, hv, hvr]

/-- Case analysis of the pointwise merge rewrite. -/
theorem rewriteOne_cases (now oldId : Nat) (idsL : List Nat) (c : Contact) :
    (c.id ∈ idsL ∧ rewriteOne now oldId idsL c =
      { c with linkedId := some oldId
               linkPrecedence := .secondary
               updatedAt := now }) ∨
    (c.id ∉ idsL ∧ (∃ v, c.linkedId = some v ∧ v ∈ idsL) ∧
      rewriteOne now oldId idsL c =
        { c with linkedId := some oldId, updatedAt := now }) ∨
    (c.id ∉ idsL ∧ ¬(∃ v, c.linkedId = some v ∧ v ∈ idsL) ∧
      rewriteOne now oldId idsL c = c) := by
  by_cases h1 : c.id ∈ idsL
  · exact Or.inl ⟨h1, by simp [rewriteOne, h1]⟩
  · cases hl : c.linkedId with
    | none =>
      refine Or.inr (Or.inr ⟨h1, ?_, by simp [rewriteOne, h1, hl]⟩)
      rintro ⟨v, hv, -⟩
      cases hv
    | some v =>
      by_cases hv : v ∈ idsL
      · exact Or.inr (Or.inl ⟨h1, ⟨v, rfl, hv⟩,
          by simp [rewriteOne, h1, hl, hv]⟩)
      · refine Or.inr (Or.inr ⟨h1, ?_, by simp [rewriteOne, h1, hl, hv]⟩)
        rintro ⟨w, hw, hwm⟩
        injection hw with hw
        rw [hw] at hv
        exact hv hwm

/-- The merge loop — the `2 · n` auto-committed UPDATE statements of
the `n` absorbed primaries, in program order — equals the single
pointwise rewrite `mergedStore`, provided the absorbed ids are distinct
ids of link-free rows and the survivor is not among them. -/
theorem applyOps_mergeWriteOps {oldId : Nat} :
    ∀ (others : List Contact) (s : Store),
    (others.map (fun c => c.id)).Nodup →
    oldId ∉ others.map (fun c => c.id) →
    (∀ c ∈ s.contacts, c.id ∈ others.map (fun c => c.id) →
      c.linkedId = none) →
    applyOps (2 * others.length) (mergeWriteOps oldId others) s =
      mergedStore s oldId (others.map (fun c => c.id))
  | [], s, _, _, _ => by
    show s = mergedStore s oldId []
    unfold mergedStore
    have hmap : s.contacts.map (rewriteOne s.now oldId []) =
        s.contacts.map id :=
      List.map_congr_left (fun c _ => rewriteOne_nil s.now oldId c)
    rw [hmap, List.map_id]
  | p :: rest, s, hnd, hold, hc1 => by
    have hne : oldId ≠ p.id := by
      intro h
      exact hold (h ▸ List.mem_cons_self _ _)
    have holdr : oldId ∉ rest.map (fun c => c.id) :=
      fun h => hold (List.mem_cons_of_mem _ h)
    have hpidr : p.id ∉ rest.map (fun c => c.id) :=
      (List.nodup_cons.mp (by simpa using hnd)).1
    have hndr : (rest.map (fun c => c.id)).Nodup :=
      (List.nodup_cons.mp (by simpa using hnd)).2
    have hstep : applyOps (2 * (p :: rest).length)
        (mergeWriteOps oldId (p :: rest)) s =
        applyOps (2 * rest.length) (mergeWriteOps oldId rest)
          (updateLinkedContactsPrimary (updateContactToSecondary s p.id oldId)
            p.id oldId) := by
      have h2 : 2 * (p :: rest).length = 2 * rest.length + 1 + 1 := by
        simp [Nat.mul_succ]
      rw [h2]
      show ((mergeWriteOps oldId (p :: rest)).take
        (2 * rest.length + 1 + 1)).foldl (fun st f => f st) s = _
      have h3 : mergeWriteOps oldId (p :: rest) =
          (fun st => updateContactToSecondary st p.id oldId) ::
          (fun st => updateLinkedContactsPrimary st p.id oldId) ::
          mergeWriteOps oldId rest := rfl
      rw [h3, List.take_succ_cons, List.take_succ_cons, List.foldl_cons,
        List.foldl_cons]
      rfl
    rw [hstep, demote_relink_eq s p.id oldId hne]
    have hc1' : ∀ c ∈ (s.contacts.map (rewriteOne s.now oldId [p.id])),
        c.id ∈ rest.map (fun c => c.id) → c.linkedId = none := by
      intro c' hc' hmem
      obtain ⟨c, hc, rfl⟩ := List.mem_map.mp hc'
      rcases rewriteOne_cases s.now oldId [p.id] c with
        ⟨h1, he⟩ | ⟨h1, h2, he⟩ | ⟨h1, h2, he⟩
      all_goals rw [he] at hmem ⊢
      · have hcp : c.id = p.id := by simpa using h1
        have : (p.id : Nat) ∈ rest.map (fun c => c.id) := by
          simpa [hcp] using hmem
        exact absurd this hpidr
      · have hln := hc1 c hc (List.mem_cons_of_mem _ (by simpa using hmem))
        obtain ⟨v, hv, -⟩ := h2
        rw [hln] at hv
        cases hv
      · exact hc1 c hc (List.mem_cons_of_mem _ hmem)
    have := applyOps_mergeWriteOps rest
      { s with contacts := s.contacts.map (rewriteOne s.now oldId [p.id]) }
      hndr holdr hc1'
    rw [this]
    unfold mergedStore
    simp only [List.map_map]
    congr 1
    apply List.map_congr_left
    intro c hc
    simp only [Function.comp_apply]
    exact rewriteOne_comp ⟨hne, holdr⟩ hpidr
      (fun h => hc1 c hc (List.mem_cons_of_mem _ h))

/-! ## Preservation of well-formedness -/

theorem orNull_ne_empty (o : Option String) : orNull o ≠ some "" := by
  unfold orNull truthy
  cases o with
  | none => simp
  | some s =>
    by_cases hs : s = ""
    · simp [hs]
    · simp [hs]

/-- Inserting a fresh contact preserves well-formedness when it is
either an unlinked primary or a secondary linked to a stored primary. -/
theorem WF_createContact {s : Store} (h : WF s) {e p : Option String}
    {li : Option Nat} {pr : LinkPrecedence}
    (he : e ≠ some "") (hpv : p ≠ some "")
    (hli : (pr = .primary ∧ li = none) ∨
      (pr = .secondary ∧ ∃ q ∈ s.contacts, li = some q.id ∧
        q.linkPrecedence = .primary)) :
    WF (createContact s e p li pr).1 := by
  obtain ⟨hpos, hb, hpw, hpnl, hlp, hpe⟩ := h
  simp only [createContact]
  refine ⟨Nat.lt_succ_of_lt hpos, ?_, ?_, ?_, ?_, ?_⟩
  · intro c hc
    rcases List.mem_append.mp hc with hc | hc
    · obtain ⟨h1, h2, h3, h4, h5, h6⟩ := hb c hc
      exact ⟨h1, Nat.lt_succ_of_lt h2, h3, h4, h5, h6⟩
    · rcases List.mem_singleton.mp hc with rfl
      exact ⟨hpos, Nat.lt_succ_self _, le_refl _, rfl, he, hpv⟩
  · rw [List.pairwise_append]
    refine ⟨hpw, List.pairwise_singleton _ _, ?_⟩
    intro a ha b hb'
    rcases List.mem_singleton.mp hb' with rfl
    exact (hb a ha).2.1
  · intro c hc hcp
    rcases List.mem_append.mp hc with hc | hc
    · exact hpnl c hc hcp
    · rcases List.mem_singleton.mp hc with rfl
      rcases hli with ⟨-, hnone⟩ | ⟨hsec, -⟩
      · exact hnone
      · rw [hsec] at hcp
        cases hcp
  · intro c hc hcs
    rcases List.mem_append.mp hc with hc | hc
    · obtain ⟨q, hq, hql, hqp⟩ := hlp c hc hcs
      exact ⟨q, List.mem_append_left _ hq, hql, hqp⟩
    · rcases List.mem_singleton.mp hc with rfl
      rcases hli with ⟨hprim, -⟩ | ⟨-, q, hq, hqe, hqp⟩
      · rw [hprim] at hcs
        cases hcs
      · exact ⟨q, List.mem_append_left _ hq, hqe, hqp⟩
  · intro q hq c hc hqp hcl
    rcases List.mem_append.mp hq with hq | hq
    · rcases List.mem_append.mp hc with hc | hc
      · exact hpe q hq c hc hqp hcl
      · rcases List.mem_singleton.mp hc with rfl
        exact (hb q hq).2.2.1
    · rcases List.mem_singleton.mp hq with rfl
      rcases List.mem_append.mp hc with hc | hc
      · exfalso
        cases hprec : c.linkPrecedence with
        | primary =>
          have := hpnl c hc hprec
          rw [this] at hcl
          cases hcl
        | secondary =>
          obtain ⟨q', hq', hql', -⟩ := hlp c hc hprec
          rw [hql'] at hcl
          injection hcl with hcl
          have h8 : q'.id = s.nextId := hcl
          have h9 := (hb q' hq').2.1
          omega
      · exfalso
        rcases List.mem_singleton.mp hc with rfl
        rcases hli with ⟨-, hnone⟩ | ⟨-, q', hq', hqe', -⟩
        · rw [hnone] at hcl
          cases hcl
        · rw [hqe'] at hcl
          injection hcl with hcl
          have h8 : q'.id = s.nextId := hcl
          have h9 := (hb q' hq').2.1
          omega

/-- The survivor (a stored, link-free primary not among the absorbed
ids) is untouched by the merge rewrite. -/
theorem rewriteOne_keeps {s : Store} (h : WF s) {w : Contact}
    {oldId : Nat} {idsL : List Nat} (hw : w ∈ s.contacts)
    (hwp : w.linkPrecedence = .primary) (hwn : w.id ∉ idsL) :
    rewriteOne s.now oldId idsL w = w := by
  have hln := h.primaryNoLink w hw hwp
  rcases rewriteOne_cases s.now oldId idsL w with
    ⟨h1, -⟩ | ⟨-, ⟨v, hv, -⟩, -⟩ | ⟨-, -, he⟩
  · exact absurd h1 hwn
  · rw [hln] at hv
    cases hv
  · exact he

/-- The merge rewrite preserves well-formedness: the absorbed primaries
become secondaries of the survivor, their children are repointed to it,
and the survivor is created no later than any absorbed primary. -/
theorem WF_mergedStore {s : Store} (h : WF s) {w : Contact} {idsL : List Nat}
    (hw : w ∈ s.contacts) (hwp : w.linkPrecedence = .primary)
    (hwn : w.id ∉ idsL)
    (habs : ∀ pid ∈ idsL, ∃ q ∈ s.contacts, q.id = pid ∧
      q.linkPrecedence = .primary ∧ w.createdAt ≤ q.createdAt) :
    WF (mergedStore s w.id idsL) := by
  have hwkeep : rewriteOne s.now w.id idsL w = w :=
    rewriteOne_keeps h hw hwp hwn
  have hidinj := h.id_inj
  obtain ⟨hpos, hb, hpw, hpnl, hlp, hpe⟩ := h
  unfold mergedStore
  have hwmem : w ∈ s.contacts.map (rewriteOne s.now w.id idsL) :=
    List.mem_map.mpr ⟨w, hw, hwkeep⟩
  refine ⟨hpos, ?_, ?_, ?_, ?_, ?_⟩
  · intro c' hc'
    obtain ⟨c, hc, rfl⟩ := List.mem_map.mp hc'
    obtain ⟨g1, g2, g3, g4, g5, g6⟩ := hb c hc
    obtain ⟨k1, k2, k3, k4, k5⟩ := rewriteOne_id s.now w.id idsL c
    simp only [k1, k2, k3, k4, k5]
    exact ⟨g1, g2, g3, g4, g5, g6⟩
  · rw [List.pairwise_map]
    exact hpw.imp (fun {a b} hab => by
      rw [(rewriteOne_id s.now w.id idsL a).1,
        (rewriteOne_id s.now w.id idsL b).1]
      exact hab)
  · intro c' hc' hcp
    obtain ⟨c, hc, rfl⟩ := List.mem_map.mp hc'
    rcases rewriteOne_cases s.now w.id idsL c with
      ⟨-, he⟩ | ⟨-, ⟨v, hv, -⟩, he⟩ | ⟨-, -, he⟩
    · rw [he] at hcp
      simp at hcp
    · rw [he] at hcp
      have hcp' : c.linkPrecedence = .primary := hcp
      have := hpnl c hc hcp'
      rw [this] at hv
      cases hv
    · rw [he] at hcp ⊢
      exact hpnl c hc hcp
  · intro c' hc' hcs
    obtain ⟨c, hc, rfl⟩ := List.mem_map.mp hc'
    rcases rewriteOne_cases s.now w.id idsL c with
      ⟨-, he⟩ | ⟨-, -, he⟩ | ⟨-, hne2, he⟩
    · rw [he]
      exact ⟨w, hwmem, rfl, hwp⟩
    · rw [he]
      exact ⟨w, hwmem, rfl, hwp⟩
    · rw [he] at hcs ⊢
      obtain ⟨q, hq, hql, hqp⟩ := hlp c hc hcs
      have hqn : q.id ∉ idsL := fun hqin => hne2 ⟨q.id, hql, hqin⟩
      have hqkeep : rewriteOne s.now w.id idsL q = q :=
        rewriteOne_keeps ⟨hpos, hb, hpw, hpnl, hlp, hpe⟩ hq hqp hqn
      exact ⟨q, List.mem_map.mpr ⟨q, hq, hqkeep⟩, hql, hqp⟩
  · intro p' hp' c' hc' hpp hcl
    obtain ⟨pp, hpm, rfl⟩ := List.mem_map.mp hp'
    obtain ⟨c, hc, rfl⟩ := List.mem_map.mp hc'
    have hpfix : rewriteOne s.now w.id idsL pp = pp := by
      rcases rewriteOne_cases s.now w.id idsL pp with
        ⟨-, he⟩ | ⟨-, ⟨v, hv, -⟩, he⟩ | ⟨-, -, he⟩
      · rw [he] at hpp
        simp at hpp
      · rw [he] at hpp
        have hpp' : pp.linkPrecedence = .primary := hpp
        have := hpnl pp hpm hpp'
        rw [this] at hv
        cases hv
      · exact he
    rw [hpfix] at hpp hcl ⊢
    rcases rewriteOne_cases s.now w.id idsL c with
      ⟨hin, he⟩ | ⟨-, ⟨v, hv, hvin⟩, he⟩ | ⟨-, -, he⟩
    · rw [he] at hcl ⊢
      have hwid : w.id = pp.id := by
        have : some w.id = some pp.id := hcl
        injection this
      have hppw : pp = w := hidinj pp hpm w hw hwid.symm
      obtain ⟨q, hq, hqid, -, hqle⟩ := habs c.id hin
      have hqc : q = c := hidinj q hq c hc hqid
      rw [hppw]
      show w.createdAt ≤ c.createdAt
      rw [← hqc]
      exact hqle
    · rw [he] at hcl ⊢
      have hwid : w.id = pp.id := by
        have : some w.id = some pp.id := hcl
        injection this
      have hppw : pp = w := hidinj pp hpm w hw hwid.symm
      obtain ⟨q, hq, hqid, hqp, hqle⟩ := habs v hvin
      have hcq : c.linkedId = some q.id := by rw [hv, hqid]
      have hqc := hpe q hq c hc hqp hcq
      rw [hppw]
      show w.createdAt ≤ c.createdAt
      exact le_trans hqle hqc
    · rw [he] at hcl ⊢
      exact hpe pp hpm c hc hpp hcl

/-! ## Resolving the touched primaries to their rows -/

/-- The `group.find(c => c.linkPrecedence === 'primary')!` extraction of
the merge branch, related position-by-position to the owning ids it was
computed from. -/
theorem roots_spec {s : Store} (h : WF s) :
    ∀ {ids : List Nat},
    (∀ pid ∈ ids, ∃ q ∈ s.contacts, q.id = pid ∧
      q.linkPrecedence = .primary) →
    List.Forall₂ (fun pid q => q ∈ s.contacts ∧ q.id = pid ∧
        q.linkPrecedence = .primary)
      ids ((ids.map (fun pid => getLinkedContacts s pid)).filterMap
        (fun g => g.find? (fun c => c.linkPrecedence == .primary)))
  | [], _ => List.Forall₂.nil
  | pid :: rest, hall => by
    obtain ⟨q, hq, hqid, hqp⟩ := hall pid (List.mem_cons_self _ _)
    have hfound : (getLinkedContacts s pid).find?
        (fun c => c.linkPrecedence == .primary) = some q := by
      rw [← hqid]
      exact cluster_find_primary h hq hqp
    rw [List.map_cons, List.filterMap_cons, hfound]
    exact List.Forall₂.cons ⟨hq, hqid, hqp⟩
      (roots_spec h (fun p hp => hall p (List.mem_cons_of_mem _ hp)))

theorem forall₂_roots_ids {s : Store} :
    ∀ {ids : List Nat} {roots : List Contact},
    List.Forall₂ (fun pid q => q ∈ s.contacts ∧ q.id = pid ∧
      q.linkPrecedence = .primary) ids roots →
    roots.map (fun c => c.id) = ids := by
  intro ids roots hf
  induction hf with
  | nil => rfl
  | cons hR _ ih => rw [List.map_cons, ih, hR.2.1]

theorem forall₂_roots_mem {s : Store} :
    ∀ {ids : List Nat} {roots : List Contact},
    List.Forall₂ (fun pid q => q ∈ s.contacts ∧ q.id = pid ∧
      q.linkPrecedence = .primary) ids roots →
    ∀ r ∈ roots, r ∈ s.contacts ∧ r.linkPrecedence = .primary := by
  intro ids roots hf
  induction hf with
  | nil => intro r hr; cases hr
  | cons hR _ ih =>
    intro r hr
    rcases List.mem_cons.mp hr with rfl | hr'
    · exact ⟨hR.1, hR.2.2⟩
    · exact ih r hr'

/-- The single shared tail preserves well-formedness whenever its
target id belongs to a stored primary. -/
theorem WF_extendResult {s1 : Store} (h : WF s1) {e p : Option String}
    {pid : Nat}
    (hq : ∃ q ∈ s1.contacts, q.id = pid ∧ q.linkPrecedence = .primary) :
    WF (extendResult s1 e p pid).1 := by
  obtain ⟨q, hqm, hqid, hqp⟩ := hq
  unfold extendResult
  split
  · exact WF_createContact h (orNull_ne_empty _) (orNull_ne_empty _)
      (Or.inr ⟨rfl, q, hqm, by rw [hqid], hqp⟩)
  · exact h

/-- Every `identify` invocation leaves a well-formed store well-formed
— the structural invariants of §3 are preserved by each branch. -/
theorem identify_preserves_WF (s : Store) (req : IdentifyRequest)
    (h : WF s) : WF (identify s req).1 := by
  cases hfind : findContactsByEmailOrPhone s req.email req.phoneNumber with
  | error e =>
    have he : identify s req = (s, .error e) := by
      simp only [identify]
      rw [hfind]
    rw [he]
    exact h
  | ok l =>
    by_cases hne : l = []
    · subst hne
      rw [identify_empty s req hfind]
      exact WF_createContact h (orNull_ne_empty _) (orNull_ne_empty _)
        (Or.inl ⟨rfl, rfl⟩)
    · have hsub := candidates_sub hfind
      have hall : ∀ pid ∈ owningPrimaryIds l, ∃ q ∈ s.contacts, q.id = pid ∧
          q.linkPrecedence = .primary :=
        fun pid hpid => owning_id_primary h hsub hpid
      rcases hzero : owningPrimaryIds l with _ | ⟨pid0, rest0⟩
      · rw [identify_zero_owning_eq s req l hfind hne hzero]
        exact h
      rcases rest0 with _ | ⟨pid1, rest1⟩
      · -- exactly one owning primary
        rw [identify_single s req hfind hne hzero]
        exact WF_extendResult h (hall pid0 (by rw [hzero]; simp))
      · -- at least two owning primaries: the merge branch
        have hF := roots_spec h hall
        set roots := ((owningPrimaryIds l).map
          (fun pid => getLinkedContacts s pid)).filterMap
          (fun g => g.find? (fun c => c.linkPrecedence == .primary)) with hroots
        have hrids : roots.map (fun c => c.id) = owningPrimaryIds l :=
          forall₂_roots_ids hF
        have hrmem := forall₂_roots_mem hF
        have hrlen : roots.length = (owningPrimaryIds l).length := by
          rw [← hrids, List.length_map]
        have hlen2 : 1 < (owningPrimaryIds l).length := by
          rw [hzero]
          simp only [List.length_cons]
          omega
        cases hsort : roots.insertionSort leCreated with
        | nil =>
          exfalso
          have := List.length_insertionSort leCreated roots
          rw [hsort] at this
          simp at this
          rw [← this] at hrlen
          omega
        | cons oldest others =>
          rw [identify_merge s req hfind hne hlen2 rfl hrlen hsort]
          have hperm : List.Perm (oldest :: others) roots := by
            rw [← hsort]
            exact List.perm_insertionSort leCreated roots
          have hmemr : ∀ r ∈ oldest :: others, r ∈ s.contacts ∧
              r.linkPrecedence = .primary :=
            fun r hr => hrmem r (hperm.subset hr)
          have hndids : ((oldest :: others).map (fun c => c.id)).Nodup := by
            have : List.Perm ((oldest :: others).map (fun c => c.id))
                (roots.map (fun c => c.id)) := hperm.map _
            rw [hrids] at this
            exact this.nodup_iff.mpr (owningPrimaryIds_nodup l)
          have hndcons : oldest.id ∉ others.map (fun c => c.id) ∧
              (others.map (fun c => c.id)).Nodup := by
            rw [List.map_cons] at hndids
            exact List.nodup_cons.mp hndids
          have hsorted : (oldest :: others).Pairwise leCreated := by
            rw [← hsort]
            exact List.sorted_insertionSort leCreated roots
          have hout : oldest.id ∉ others.map (fun c => c.id) := hndcons.1
          have hc1 : ∀ c ∈ s.contacts,
              c.id ∈ others.map (fun c => c.id) → c.linkedId = none := by
            intro c hc hcid
            obtain ⟨r, hr, hrid⟩ := List.mem_map.mp hcid
            have hrp := hmemr r (List.mem_cons_of_mem _ hr)
            have : c = r := h.id_inj c hc r hrp.1 hrid.symm
            rw [this]
            exact h.primaryNoLink r hrp.1 hrp.2
          rw [applyOps_mergeWriteOps others s hndcons.2 hout hc1]
          have holdm := hmemr oldest (List.mem_cons_self _ _)
          have habs : ∀ pid ∈ others.map (fun c => c.id),
              ∃ q ∈ s.contacts, q.id = pid ∧ q.linkPrecedence = .primary ∧
                oldest.createdAt ≤ q.createdAt := by
            intro pid hpid
            obtain ⟨r, hr, hrid⟩ := List.mem_map.mp hpid
            have hrp := hmemr r (List.mem_cons_of_mem _ hr)
            refine ⟨r, hrp.1, hrid, hrp.2, ?_⟩
            exact (List.pairwise_cons.mp hsorted).1 r hr
          have hWFm := WF_mergedStore h holdm.1 holdm.2 hout habs
          apply WF_extendResult hWFm
          refine ⟨oldest, ?_, rfl, holdm.2⟩
          unfold mergedStore
          exact List.mem_map.mpr ⟨oldest, holdm.1,
            rewriteOne_keeps h holdm.1 holdm.2 hout⟩

/-! ## C4 — flat star topology after every call -/

/-- C4: starting from a store satisfying the invariants, after any
`identify` call every secondary contact links to a contact that is
primary — no secondary ever links to another secondary. -/
theorem secondary_links_to_primary (s : Store) (req : IdentifyRequest)
    (h : WF s) :
    ∀ c ∈ (identify s req).1.contacts, c.linkPrecedence = .secondary →
      ∃ p ∈ (identify s req).1.contacts, c.linkedId = some p.id ∧
        p.linkPrecedence = .primary :=
  (identify_preserves_WF s req h).linkToPrimary

def starStore : Store :=
  ⟨[⟨1, none, some "a", none, .primary, 1, 1, none⟩,
    ⟨2, some "p", none, some 1, .secondary, 2, 2, none⟩], 3, 10⟩

def starReq : IdentifyRequest := ⟨some "a", some "q"⟩

theorem secondary_links_to_primary_witness :
    WF starStore ∧
    (∀ c ∈ (identify starStore starReq).1.contacts,
      c.linkPrecedence = .secondary →
      ∃ p ∈ (identify starStore starReq).1.contacts,
        c.linkedId = some p.id ∧ p.linkPrecedence = .primary) :=
  ⟨by decide, secondary_links_to_primary starStore starReq (by decide)⟩

/-! ## C2 — who is the primary of a cluster

The code sorts the touched primaries by `createdAt` alone; on a tie the
stable sort keeps `Set` insertion order, which lists directly-matched
primaries before primaries reached through a secondary.  The claim's
`(createdAt, id)` tie-break is therefore violated; what does hold, for
all histories, is that every cluster's primary has the earliest
`createdAt` among its members. -/

/-- Two primaries sharing `createdAt = 5`: id 1 is matched through its
secondary (id 3), id 2 matched directly.  The request bridges them. -/
def tieA : Contact := ⟨1, none, some "b", none, .primary, 5, 5, none⟩

def tieB : Contact := ⟨2, none, some "a", none, .primary, 5, 5, none⟩

def tieC : Contact := ⟨3, some "p", none, some 1, .secondary, 6, 6, none⟩

def tieStore : Store := ⟨[tieA, tieB, tieC], 4, 10⟩

def tieReq : IdentifyRequest := ⟨some "a", some "p"⟩

/-- C2 counterexample: after `identify` on the well-formed `tieStore`,
the surviving cluster's primary is id 2 (createdAt 5) while the demoted
id 1 (same createdAt 5, smaller id) is a member of that cluster — the
primary is not the `(createdAt, id)`-least member the claim requires. -/
theorem primary_tie_counterexample :
    WF tieStore ∧
    (∃ p ∈ (identify tieStore tieReq).1.contacts,
      p.linkPrecedence = .primary ∧ p.id = 2 ∧ p.createdAt = 5 ∧
      ∃ c ∈ (identify tieStore tieReq).1.contacts,
        c.linkedId = some p.id ∧ c.id = 1 ∧ c.createdAt = 5) := by
  decide

/-- C2 (amended): for every merge history starting from a store
satisfying the invariants, after every `identify` call the primary of
every cluster has the earliest `createdAt` among the cluster's members
(the id tie-break of the original claim does not hold — see the
counterexample). -/
theorem primary_earliest_all_histories (s : Store)
    (reqs : List IdentifyRequest) (h : WF s) :
    ∀ p ∈ (runHistory s reqs).contacts, ∀ c ∈ (runHistory s reqs).contacts,
      p.linkPrecedence = .primary → c.linkedId = some p.id →
      p.createdAt ≤ c.createdAt := by
  have hWF : WF (runHistory s reqs) := by
    induction reqs generalizing s with
    | nil => exact h
    | cons r rs ih => exact ih _ (identify_preserves_WF s r h)
  exact hWF.primaryEarliest

theorem primary_earliest_all_histories_witness :
    WF starStore ∧
    (∀ p ∈ (runHistory starStore [starReq, tieReq]).contacts,
      ∀ c ∈ (runHistory starStore [starReq, tieReq]).contacts,
      p.linkPrecedence = .primary → c.linkedId = some p.id →
      p.createdAt ≤ c.createdAt) :=
  ⟨by decide, primary_earliest_all_histories starStore [starReq, tieReq]
    (by decide)⟩

/-! ## C3 — single owning primary: extend or no-op -/

theorem contains_iff_mem {l : List String} {v : String} :
    l.contains v = true ↔ v ∈ l := List.elem_iff

theorem mem_truthy_values {f : Contact → Option String}
    {cluster : List Contact} {v : String} (hv : (v == "") = false) :
    (((cluster.filterMap f).filter (fun x => !(x == ""))).contains v = true) ↔
      ∃ c ∈ cluster, f c = some v := by
  rw [contains_iff_mem, List.mem_filter, List.mem_filterMap]
  constructor
  · rintro ⟨⟨c, hc, hfc⟩, -⟩
    exact ⟨c, hc, hfc⟩
  · rintro ⟨c, hc, hfc⟩
    exact ⟨⟨c, hc, hfc⟩, by simp [hv]⟩

theorem truthy_absent_iff {f : Contact → Option String} (o : Option String)
    (cluster : List Contact) :
    (truthy o && !((cluster.filterMap f).filter
        (fun x => !(x == ""))).contains (o.getD "")) = true ↔
      (truthy o = true ∧ ∀ c ∈ cluster, f c ≠ o) := by
  rw [Bool.and_eq_true]
  constructor
  · rintro ⟨ht, hn⟩
    refine ⟨ht, fun c hc hfc => ?_⟩
    cases o with
    | none => cases ht
    | some v =>
      have hv : (v == "") = false := by simpa [truthy] using ht
      have hc' : ((cluster.filterMap f).filter
          (fun x => !(x == ""))).contains v = true :=
        (mem_truthy_values hv).mpr ⟨c, hc, hfc⟩
      simp only [Option.getD_some, Bool.not_eq_true'] at hn
      rw [hc'] at hn
      cases hn
  · rintro ⟨ht, hn⟩
    refine ⟨ht, ?_⟩
    cases o with
    | none => cases ht
    | some v =>
      simp only [Option.getD_some, Bool.not_eq_true']
      rw [Bool.eq_false_iff]
      intro hcont
      have hv : (v == "") = false := by simpa [truthy] using ht
      obtain ⟨c, hc, hfc⟩ := (mem_truthy_values hv).mp hcont
      exact hn c hc hfc

/-- The source's `Set`-based new-information check agrees with the
specification's phrasing: a truthy value is new exactly when no cluster
member carries it.  (The `filter(Boolean)` drop of empty strings is
immaterial because a truthy request value is itself non-empty.) -/
theorem hasNewInfo_iff (e p : Option String) (cluster : List Contact) :
    hasNewInfo e p cluster = true ↔
      (truthy e = true ∧ ∀ c ∈ cluster, c.email ≠ e) ∨
      (truthy p = true ∧ ∀ c ∈ cluster, c.phoneNumber ≠ p) := by
  show ((truthy e && !((cluster.filterMap (fun c => c.email)).filter
      (fun v => !(v == ""))).contains (e.getD "")) ||
    (truthy p && !((cluster.filterMap (fun c => c.phoneNumber)).filter
      (fun v => !(v == ""))).contains (p.getD ""))) = true ↔ _
  rw [Bool.or_eq_true, truthy_absent_iff e cluster, truthy_absent_iff p cluster]

/-- C3: when the candidate set resolves to exactly one owning primary,
`identify` creates a new secondary (with exactly the given truthy
email/phone, linked to that primary, included in the result set) iff
the observation introduces an email or a phone absent from the
materialized cluster; otherwise it performs zero writes, leaves the
store unchanged, and returns the consolidated view of the cluster as it
stands — so repeating an already-covered observation is idempotent. -/
theorem single_primary_extend (s : Store) (req : IdentifyRequest)
    {l : List Contact} {pid : Nat}
    (hfind : findContactsByEmailOrPhone s req.email req.phoneNumber = .ok l)
    (hne : l ≠ [])
    (hown : owningPrimaryIds l = [pid]) :
    (((truthy req.email = true ∧
        ∀ c ∈ getLinkedContacts s pid, c.email ≠ req.email) ∨
      (truthy req.phoneNumber = true ∧
        ∀ c ∈ getLinkedContacts s pid, c.phoneNumber ≠ req.phoneNumber)) →
      identify s req =
        ({ contacts := s.contacts ++
            [⟨s.nextId, orNull req.phoneNumber, orNull req.email, some pid,
              .secondary, s.now, s.now, none⟩],
           nextId := s.nextId + 1, now := s.now },
         buildConsolidatedContact (getLinkedContacts s pid ++
           [⟨s.nextId, orNull req.phoneNumber, orNull req.email, some pid,
             .secondary, s.now, s.now, none⟩]))) ∧
    ((¬((truthy req.email = true ∧
        ∀ c ∈ getLinkedContacts s pid, c.email ≠ req.email) ∨
      (truthy req.phoneNumber = true ∧
        ∀ c ∈ getLinkedContacts s pid, c.phoneNumber ≠ req.phoneNumber))) →
      identify s req =
        (s, buildConsolidatedContact (getLinkedContacts s pid))) ∧
    ((identify s req).1.contacts.length = s.contacts.length + 1 ↔
      ((truthy req.email = true ∧
        ∀ c ∈ getLinkedContacts s pid, c.email ≠ req.email) ∨
      (truthy req.phoneNumber = true ∧
        ∀ c ∈ getLinkedContacts s pid, c.phoneNumber ≠ req.phoneNumber))) := by
  rw [identify_single s req hfind hne hown]
  unfold extendResult
  rw [← hasNewInfo_iff req.email req.phoneNumber (getLinkedContacts s pid)]
  by_cases hni : hasNewInfo req.email req.phoneNumber
      (getLinkedContacts s pid) = true
  · rw [if_pos hni]
    refine ⟨fun _ => rfl, fun hno => absurd hni hno, ?_⟩
    simp only [createContact, List.length_append, List.length_singleton]
    exact ⟨fun _ => hni, fun _ => trivial⟩
  · rw [if_neg hni]
    refine ⟨fun hyes => absurd hyes hni, fun _ => rfl, ?_⟩
    constructor
    · intro hlen
      exfalso
      have hlen' : s.contacts.length = s.contacts.length + 1 := hlen
      omega
    · intro hyes
      exact absurd hyes hni

def singleStore : Store :=
  ⟨[⟨1, none, some "a", none, .primary, 1, 1, none⟩], 2, 10⟩

def singleReq : IdentifyRequest := ⟨some "a", some "123"⟩

theorem single_primary_extend_witness :
    findContactsByEmailOrPhone singleStore singleReq.email
        singleReq.phoneNumber =
      .ok [⟨1, none, some "a", none, .primary, 1, 1, none⟩] ∧
    owningPrimaryIds [(⟨1, none, some "a", none, .primary, 1, 1, none⟩ :
      Contact)] = [1] ∧
    ((((truthy singleReq.email = true ∧
        ∀ c ∈ getLinkedContacts singleStore 1, c.email ≠ singleReq.email) ∨
      (truthy singleReq.phoneNumber = true ∧
        ∀ c ∈ getLinkedContacts singleStore 1,
          c.phoneNumber ≠ singleReq.phoneNumber)) →
      identify singleStore singleReq =
        ({ contacts := singleStore.contacts ++
            [⟨singleStore.nextId, orNull singleReq.phoneNumber,
              orNull singleReq.email, some 1, .secondary, singleStore.now,
              singleStore.now, none⟩],
           nextId := singleStore.nextId + 1, now := singleStore.now },
         buildConsolidatedContact (getLinkedContacts singleStore 1 ++
           [⟨singleStore.nextId, orNull singleReq.phoneNumber,
             orNull singleReq.email, some 1, .secondary, singleStore.now,
             singleStore.now, none⟩]))) ∧
    ((¬((truthy singleReq.email = true ∧
        ∀ c ∈ getLinkedContacts singleStore 1, c.email ≠ singleReq.email) ∨
      (truthy singleReq.phoneNumber = true ∧
        ∀ c ∈ getLinkedContacts singleStore 1,
          c.phoneNumber ≠ singleReq.phoneNumber))) →
      identify singleStore singleReq =
        (singleStore,
         buildConsolidatedContact (getLinkedContacts singleStore 1))) ∧
    ((identify singleStore singleReq).1.contacts.length =
        singleStore.contacts.length + 1 ↔
      ((truthy singleReq.email = true ∧
        ∀ c ∈ getLinkedContacts singleStore 1, c.email ≠ singleReq.email) ∨
      (truthy singleReq.phoneNumber = true ∧
        ∀ c ∈ getLinkedContacts singleStore 1,
          c.phoneNumber ≠ singleReq.phoneNumber)))) :=
  ⟨by decide, by decide,
    @single_primary_extend singleStore singleReq
      [⟨1, none, some "a", none, .primary, 1, 1, none⟩] 1
      (by decide) (by decide) (by decide)⟩

/-! ## C6 — the consolidated-view builder -/

/-- Modelled from the spec (§4.3): append a value unless it is null or
already emitted — first-seen-wins de-duplication, order preserved. -/
def specPush (acc : List String) : Option String → List String
  | none => acc
  | some v => if acc.contains v then acc else acc ++ [v]

/-- Modelled from the spec (§4.3): the consolidated view of a
materialized cluster — the primary's id, the primary's value first
followed by the secondaries' values in cluster `(createdAt, id)` order
with first-seen-wins de-duplication, and the non-primary members' ids
in that same order. -/
def specView (cluster : List Contact) (p : Contact) : ConsolidatedContact :=
  { primaryContatctId := p.id
    emails := (cluster.filter (fun c => c.linkPrecedence == .secondary)).foldl
      (fun acc c => specPush acc c.email) (specPush [] p.email)
    phoneNumbers :=
      (cluster.filter (fun c => c.linkPrecedence == .secondary)).foldl
        (fun acc c => specPush acc c.phoneNumber) (specPush [] p.phoneNumber)
    secondaryContactIds :=
      (cluster.filter (fun c => c.linkPrecedence == .secondary)).map
        (fun c => c.id) }

theorem pushValue_eq_specPush {acc : List String} {v : Option String}
    (hv : v ≠ some "") : pushValue acc v = specPush acc v := by
  cases v with
  | none => rfl
  | some x =>
    have hx : (x == "") = false := by
      simp only [beq_eq_false_iff_ne, ne_eq]
      intro h
      exact hv (by rw [h])
    show (if (!(x == "") && !acc.contains x) = true then acc ++ [x] else acc) =
      (if acc.contains x = true then acc else acc ++ [x])
    rw [hx]
    by_cases hc : acc.contains x
    · simp [hc]
    · simp [hc]

theorem foldl_pushValue_eq {f : Contact → Option String} :
    ∀ (l : List Contact) (acc : List String),
    (∀ c ∈ l, f c ≠ some "") →
    l.foldl (fun acc c => pushValue acc (f c)) acc =
      l.foldl (fun acc c => specPush acc (f c)) acc
  | [], _, _ => rfl
  | c :: cs, acc, h => by
    rw [List.foldl_cons, List.foldl_cons,
      pushValue_eq_specPush (h c (List.mem_cons_self c cs))]
    exact foldl_pushValue_eq cs _ (fun d hd => h d (List.mem_cons_of_mem c hd))

theorem sublist_of_cons_ne {α : Type _} {l r : List α} {a : α}
    (h : List.Sublist l (a :: r)) (hne : a ∉ l) : List.Sublist l r := by
  cases h with
  | cons _ h' => exact h'
  | cons₂ _ h' => exact absurd (List.mem_cons_self _ _) hne

/-- On a `(createdAt, id)`-sorted cluster with a single primary, the
builder's stable sort only moves the primary to the front: the
secondaries keep their relative order. -/
theorem insertionSort_buildLe_eq {cluster : List Contact} {p : Contact}
    (hsorted : cluster.Pairwise lexLT)
    (honep : cluster.filter (fun c => c.linkPrecedence == .primary) = [p]) :
    cluster.insertionSort buildLe =
      p :: cluster.filter (fun c => c.linkPrecedence == .secondary) := by
  have hpmem : p ∈ cluster := by
    have hp : p ∈ cluster.filter (fun c => c.linkPrecedence == .primary) := by
      rw [honep]
      simp
    exact (List.mem_filter.mp hp).1
  have hpprim : p.linkPrecedence = .primary := by
    have hp : p ∈ cluster.filter (fun c => c.linkPrecedence == .primary) := by
      rw [honep]
      simp
    simpa using (List.mem_filter.mp hp).2
  have huniq : ∀ c ∈ cluster, c.linkPrecedence = .primary → c = p := by
    intro c hc hcp
    have hcm : c ∈ cluster.filter (fun c => c.linkPrecedence == .primary) :=
      List.mem_filter.mpr ⟨hc, by simp [hcp]⟩
    rw [honep] at hcm
    simpa using hcm
  have hsecmem : ∀ c ∈ cluster.filter
      (fun c => c.linkPrecedence == .secondary),
      c.linkPrecedence = .secondary :=
    fun c hc => by simpa using (List.mem_filter.mp hc).2
  have hsecpw : (cluster.filter
      (fun c => c.linkPrecedence == .secondary)).Pairwise buildLe := by
    have h1 : (cluster.filter
        (fun c => c.linkPrecedence == .secondary)).Pairwise lexLT :=
      hsorted.sublist (List.filter_sublist _)
    refine h1.imp_of_mem ?_
    intro a b ha hb hab
    unfold buildLe
    rw [hsecmem a ha, hsecmem b hb]
    refine Or.inr ⟨rfl, ?_⟩
    rcases hab with h | ⟨h, -⟩
    · exact le_of_lt h
    · exact le_of_eq h
  have hsub : List.Sublist
      (cluster.filter (fun c => c.linkPrecedence == .secondary))
      (cluster.insertionSort buildLe) :=
    List.sublist_insertionSort hsecpw (List.filter_sublist _)
  have hperm : List.Perm (cluster.insertionSort buildLe) cluster :=
    List.perm_insertionSort _ _
  have hout_pw : (cluster.insertionSort buildLe).Pairwise buildLe :=
    List.sorted_insertionSort buildLe cluster
  cases hsort : cluster.insertionSort buildLe with
  | nil =>
    exfalso
    have hpo : p ∈ cluster.insertionSort buildLe :=
      (List.mem_insertionSort buildLe).mpr hpmem
    rw [hsort] at hpo
    cases hpo
  | cons x rest =>
    rw [hsort] at hsub hperm hout_pw
    have hx : x = p := by
      by_contra hxp
      have hxmem : x ∈ cluster := hperm.subset (List.mem_cons_self x rest)
      have hxsec : x.linkPrecedence = .secondary := by
        cases hxc : x.linkPrecedence with
        | primary => exact absurd (huniq x hxmem hxc) hxp
        | secondary => rfl
      have hpout : p ∈ x :: rest := by
        rw [← hsort, List.mem_insertionSort]
        exact hpmem
      rcases List.mem_cons.mp hpout with rfl | hprest
      · exact hxp rfl
      · have hle := (List.pairwise_cons.mp hout_pw).1 p hprest
        unfold buildLe at hle
        rw [hxsec, hpprim] at hle
        simp [precRank] at hle
    rw [hx] at hsub hperm
    rw [hx]
    have hsub' : List.Sublist
        (cluster.filter (fun c => c.linkPrecedence == .secondary)) rest := by
      apply sublist_of_cons_ne hsub
      intro hpin
      have hps := hsecmem p hpin
      rw [hpprim] at hps
      cases hps
    have hclperm : List.Perm cluster
        (p :: cluster.filter (fun c => c.linkPrecedence == .secondary)) := by
      have h1 := List.filter_append_perm
        (fun c => c.linkPrecedence == .primary) cluster
      have h2 : cluster.filter
          (fun c => !(c.linkPrecedence == LinkPrecedence.primary)) =
          cluster.filter (fun c => c.linkPrecedence == .secondary) := by
        apply List.filter_congr
        intro c _
        cases c.linkPrecedence <;> rfl
      rw [honep, h2] at h1
      exact h1.symm
    have hrest : List.Perm rest
        (cluster.filter (fun c => c.linkPrecedence == .secondary)) := by
      have hp2 : List.Perm (p :: rest)
          (p :: cluster.filter (fun c => c.linkPrecedence == .secondary)) :=
        hperm.trans hclperm
      exact (List.perm_cons p).mp hp2
    rw [hsub'.eq_of_length hrest.length_eq.symm]

/-- C6: on a materialized cluster — `(createdAt, id)`-sorted rows with
exactly one primary and no empty-string values (the engine never stores
any) — `buildConsolidatedContact` is exactly the deterministic
projection the specification describes: the primary's id, the
first-seen-wins email and phone lists with the primary's values first
and the secondaries' values in `(createdAt, id)` order, and the
non-primary ids in `(createdAt, id)` order. -/
theorem buildConsolidatedContact_spec (cluster : List Contact) (p : Contact)
    (hsorted : cluster.Pairwise lexLT)
    (honep : cluster.filter (fun c => c.linkPrecedence == .primary) = [p])
    (hvals : ∀ c ∈ cluster, c.email ≠ some "" ∧ c.phoneNumber ≠ some "") :
    buildConsolidatedContact cluster = .ok (specView cluster p) := by
  have hkey := insertionSort_buildLe_eq hsorted honep
  have hpmem : p ∈ cluster := by
    have hp : p ∈ cluster.filter (fun c => c.linkPrecedence == .primary) := by
      rw [honep]
      simp
    exact (List.mem_filter.mp hp).1
  have hpprim : p.linkPrecedence = .primary := by
    have hp : p ∈ cluster.filter (fun c => c.linkPrecedence == .primary) := by
      rw [honep]
      simp
    simpa using (List.mem_filter.mp hp).2
  have hsecs_sub : ∀ c ∈ cluster.filter
      (fun c => c.linkPrecedence == .secondary), c ∈ cluster :=
    fun c hc => (List.mem_filter.mp hc).1
  unfold buildConsolidatedContact
  simp only []
  rw [hkey, List.find?_cons_of_pos _ (by simp [hpprim])]
  simp only []
  have hfilter : (p :: cluster.filter
      (fun c => c.linkPrecedence == .secondary)).filter
      (fun c => c.linkPrecedence == .secondary) =
      cluster.filter (fun c => c.linkPrecedence == .secondary) := by
    rw [List.filter_cons_of_neg (by simp [hpprim])]
    rw [List.filter_eq_self]
    intro c hc
    exact (List.mem_filter.mp hc).2
  rw [hfilter]
  unfold specView
  rw [foldl_pushValue_eq _ _
      (fun c hc => (hvals c (hsecs_sub c hc)).1),
    foldl_pushValue_eq _ _
      (fun c hc => (hvals c (hsecs_sub c hc)).2),
    pushValue_eq_specPush (hvals p hpmem).1,
    pushValue_eq_specPush (hvals p hpmem).2]

def viewCluster : List Contact :=
  [⟨1, some "111", some "a", none, .primary, 1, 1, none⟩,
   ⟨2, some "111", some "b", some 1, .secondary, 2, 2, none⟩,
   ⟨3, none, some "a", some 1, .secondary, 2, 2, none⟩]

theorem buildConsolidatedContact_spec_witness :
    viewCluster.Pairwise lexLT ∧
    buildConsolidatedContact viewCluster =
      .ok (specView viewCluster
        ⟨1, some "111", some "a", none, .primary, 1, 1, none⟩) ∧
    specView viewCluster ⟨1, some "111", some "a", none, .primary, 1, 1, none⟩ =
      { primaryContatctId := 1, emails := ["a", "b"], phoneNumbers := ["111"],
        secondaryContactIds := [2, 3] } :=
  ⟨by decide,
    buildConsolidatedContact_spec viewCluster
      ⟨1, some "111", some "a", none, .primary, 1, 1, none⟩
      (by decide) (by decide) (by decide),
    by decide⟩

/-! ## C1 — the merge: survivor selection and the merged cluster -/

/-- The owning primaries (step 3 of the algorithm) resolved to their
stored rows, in owning-id order: the roots of the clusters the
observation touches. -/
def touchedRoots (s : Store) (req : IdentifyRequest) : List Contact :=
  match findContactsByEmailOrPhone s req.email req.phoneNumber with
  | .error _ => []
  | .ok l => (owningPrimaryIds l).filterMap (contactById s)

theorem filterMap_congr_mem {α β : Type _} {f g : α → Option β} :
    ∀ {l : List α}, (∀ a ∈ l, f a = g a) → l.filterMap f = l.filterMap g
  | [], _ => rfl
  | x :: xs, h => by
    rw [List.filterMap_cons, List.filterMap_cons,
      h x (List.mem_cons_self x xs)]
    cases g x <;>
      rw [filterMap_congr_mem (fun a ha => h a (List.mem_cons_of_mem x ha))]

/-- `touchedRoots` is exactly the list of cluster roots the merge
branch extracts with `group.find(... === 'primary')!`. -/
theorem touchedRoots_eq {s : Store} {req : IdentifyRequest}
    {l : List Contact} (h : WF s)
    (hfind : findContactsByEmailOrPhone s req.email req.phoneNumber = .ok l)
    (hall : ∀ pid ∈ owningPrimaryIds l, ∃ q ∈ s.contacts, q.id = pid ∧
      q.linkPrecedence = .primary) :
    touchedRoots s req =
      ((owningPrimaryIds l).map (fun pid => getLinkedContacts s pid)).filterMap
        (fun g => g.find? (fun c => c.linkPrecedence == .primary)) := by
  unfold touchedRoots
  rw [hfind, List.filterMap_map]
  apply filterMap_congr_mem
  intro pid hpid
  obtain ⟨q, hq, hqid, hqp⟩ := hall pid hpid
  subst hqid
  rw [contactById_eq h hq]
  exact (cluster_find_primary h hq hqp).symm

theorem created_inj_of_pairwise {l : List Contact}
    (h : l.Pairwise (fun a b => a.createdAt ≠ b.createdAt)) :
    ∀ a ∈ l, ∀ b ∈ l, a.createdAt = b.createdAt → a = b := by
  induction l with
  | nil => intro a ha; cases ha
  | cons x xs ih =>
    rw [List.pairwise_cons] at h
    intro a ha b hb heq
    rcases List.mem_cons.mp ha with rfl | ha'
    · rcases List.mem_cons.mp hb with rfl | hb'
      · rfl
      · exact absurd heq (h.1 b hb')
    · rcases List.mem_cons.mp hb with rfl | hb'
      · exact absurd heq.symm (h.1 a ha')
      · exact ih h.2 a ha' b hb' heq

theorem map_ids_nodup {l : List Contact}
    (h : l.Pairwise (fun a b => a.id < b.id)) :
    (l.map (fun c => c.id)).Nodup := by
  have hpw : (l.map (fun c => c.id)).Pairwise (· < ·) :=
    List.pairwise_map.mpr h
  exact hpw.imp (fun hab => Nat.ne_of_lt hab)

theorem ids_cluster_mem {s : Store} (h : WF s) {q : Contact}
    (hq : q ∈ s.contacts) (hqp : q.linkPrecedence = .primary) {i : Nat} :
    i ∈ (getLinkedContacts s q.id).map (fun c => c.id) ↔
      i = q.id ∨ ∃ c ∈ s.contacts, c.linkedId = some q.id ∧ c.id = i := by
  rw [List.mem_map]
  constructor
  · rintro ⟨c, hc, rfl⟩
    rcases (mem_getLinkedContacts h hq hqp).mp hc with rfl | ⟨hcm, hcl⟩
    · exact Or.inl rfl
    · exact Or.inr ⟨c, hcm, hcl, rfl⟩
  · rintro (rfl | ⟨c, hcm, hcl, rfl⟩)
    · exact ⟨q, (mem_getLinkedContacts h hq hqp).mpr (Or.inl rfl), rfl⟩
    · exact ⟨c, (mem_getLinkedContacts h hq hqp).mpr (Or.inr ⟨hcm, hcl⟩), rfl⟩

theorem ids_cluster_nodup {s : Store} (h : WF s) {q : Contact}
    (hq : q ∈ s.contacts) (hqp : q.linkPrecedence = .primary) :
    ((getLinkedContacts s q.id).map (fun c => c.id)).Nodup := by
  rw [getLinkedContacts_eq h hq hqp]
  have hperm : List.Perm
      ((q :: childrenOf s q.id).insertionSort leCreatedId)
      (q :: childrenOf s q.id) := List.perm_insertionSort _ _
  refine (hperm.map (fun c => c.id)).nodup_iff.mpr ?_
  rw [List.map_cons, List.nodup_cons]
  constructor
  · intro hqin
    obtain ⟨c, hc, hcid⟩ := List.mem_map.mp hqin
    have hcm := List.mem_filter.mp hc
    have hcq : c = q := h.id_inj c hcm.1 q hq hcid
    have hcl : c.linkedId = some q.id := by
      have h2 := hcm.2
      simp only [Bool.and_eq_true, beq_iff_eq] at h2
      exact h2.2
    rw [hcq, h.primaryNoLink q hq hqp] at hcl
    cases hcl
  · exact map_ids_nodup (h.idsSorted.sublist (List.filter_sublist _))

/-- The packaged shape of the merge branch: the survivor (`oldest`) and
the absorbed primaries (`others`), their relation to `touchedRoots`,
and the fact that `identify` is the shared extend tail applied to the
pointwise-rewritten store. -/
theorem merge_branch_data {s : Store} {req : IdentifyRequest}
    {l : List Contact} (h : WF s)
    (hfind : findContactsByEmailOrPhone s req.email req.phoneNumber = .ok l)
    (hne : l ≠ [])
    (hlen2 : 1 < (owningPrimaryIds l).length) :
    ∃ (oldest : Contact) (others : List Contact),
      identify s req =
        extendResult (mergedStore s oldest.id (others.map (fun c => c.id)))
          req.email req.phoneNumber oldest.id ∧
      List.Perm (oldest :: others) (touchedRoots s req) ∧
      (oldest :: others).Pairwise leCreated ∧
      (∀ r ∈ oldest :: others, r ∈ s.contacts ∧
        r.linkPrecedence = .primary) ∧
      ((oldest :: others).map (fun c => c.id)).Nodup ∧
      WF (mergedStore s oldest.id (others.map (fun c => c.id))) ∧
      rewriteOne s.now oldest.id (others.map (fun c => c.id)) oldest =
        oldest := by
  have hsub := candidates_sub hfind
  have hall : ∀ pid ∈ owningPrimaryIds l, ∃ q ∈ s.contacts, q.id = pid ∧
      q.linkPrecedence = .primary :=
    fun pid hpid => owning_id_primary h hsub hpid
  have hF := roots_spec h hall
  set roots := ((owningPrimaryIds l).map
    (fun pid => getLinkedContacts s pid)).filterMap
    (fun g => g.find? (fun c => c.linkPrecedence == .primary)) with hroots
  have hrids : roots.map (fun c => c.id) = owningPrimaryIds l :=
    forall₂_roots_ids hF
  have hrmem := forall₂_roots_mem hF
  have hrlen : roots.length = (owningPrimaryIds l).length := by
    rw [← hrids, List.length_map]
  cases hsort : roots.insertionSort leCreated with
  | nil =>
    exfalso
    have hl := List.length_insertionSort leCreated roots
    rw [hsort] at hl
    simp at hl
    rw [← hl] at hrlen
    omega
  | cons oldest others =>
    have hperm : List.Perm (oldest :: others) roots := by
      rw [← hsort]
      exact List.perm_insertionSort leCreated roots
    have hmemr : ∀ r ∈ oldest :: others, r ∈ s.contacts ∧
        r.linkPrecedence = .primary :=
      fun r hr => hrmem r (hperm.subset hr)
    have hndids : ((oldest :: others).map (fun c => c.id)).Nodup := by
      have hpm : List.Perm ((oldest :: others).map (fun c => c.id))
          (roots.map (fun c => c.id)) := hperm.map _
      rw [hrids] at hpm
      exact hpm.nodup_iff.mpr (owningPrimaryIds_nodup l)
    have hndcons : oldest.id ∉ others.map (fun c => c.id) ∧
        (others.map (fun c => c.id)).Nodup := by
      rw [List.map_cons] at hndids
      exact List.nodup_cons.mp hndids
    have hsorted : (oldest :: others).Pairwise leCreated := by
      rw [← hsort]
      exact List.sorted_insertionSort leCreated roots
    have hc1 : ∀ c ∈ s.contacts,
        c.id ∈ others.map (fun c => c.id) → c.linkedId = none := by
      intro c hc hcid
      obtain ⟨r, hr, hrid⟩ := List.mem_map.mp hcid
      have hrp := hmemr r (List.mem_cons_of_mem _ hr)
      have hcr : c = r := h.id_inj c hc r hrp.1 hrid.symm
      rw [hcr]
      exact h.primaryNoLink r hrp.1 hrp.2
    have holdm := hmemr oldest (List.mem_cons_self _ _)
    have habs : ∀ pid ∈ others.map (fun c => c.id),
        ∃ q ∈ s.contacts, q.id = pid ∧ q.linkPrecedence = .primary ∧
          oldest.createdAt ≤ q.createdAt := by
      intro pid hpid
      obtain ⟨r, hr, hrid⟩ := List.mem_map.mp hpid
      have hrp := hmemr r (List.mem_cons_of_mem _ hr)
      exact ⟨r, hrp.1, hrid, hrp.2, (List.pairwise_cons.mp hsorted).1 r hr⟩
    refine ⟨oldest, others, ?_, ?_, hsorted, hmemr, hndids, ?_, ?_⟩
    · rw [identify_merge s req hfind hne hlen2 rfl hrlen hsort,
        applyOps_mergeWriteOps others s hndcons.2 hndcons.1 hc1]
    · rw [touchedRoots_eq h hfind hall]
      exact hperm
    · exact WF_mergedStore h holdm.1 holdm.2 hndcons.1 habs
    · exact rewriteOne_keeps h holdm.1 holdm.2 hndcons.1

/-- The ids found in the survivor's cluster after the merge (and after
an optional appended secondary, the rows of `ext`) are exactly the ids
of the union of the touched clusters plus the appended rows. -/
theorem merged_cluster_ids {s : Store} {oldest : Contact}
    {others : List Contact} (h : WF s)
    (hmemr : ∀ r ∈ oldest :: others, r ∈ s.contacts ∧
      r.linkPrecedence = .primary)
    (hnd : ((oldest :: others).map (fun c => c.id)).Nodup)
    {s' : Store} (hWF' : WF s')
    {ext : List Contact}
    (hsc : s'.contacts =
      (mergedStore s oldest.id (others.map (fun c => c.id))).contacts ++ ext)
    (hextl : ∀ nc ∈ ext, nc.linkedId = some oldest.id ∧ nc.id = s.nextId)
    (i : Nat) :
    i ∈ (getLinkedContacts s' oldest.id).map (fun c => c.id) ↔
      ((∃ q ∈ oldest :: others,
          i ∈ (getLinkedContacts s q.id).map (fun c => c.id)) ∨
        (ext ≠ [] ∧ i = s.nextId)) := by
  have holdm := hmemr oldest (List.mem_cons_self _ _)
  have hndc : oldest.id ∉ others.map (fun c => c.id) ∧
      (others.map (fun c => c.id)).Nodup := by
    rw [List.map_cons] at hnd
    exact List.nodup_cons.mp hnd
  have hkeep : rewriteOne s.now oldest.id (others.map (fun c => c.id))
      oldest = oldest := rewriteOne_keeps h holdm.1 holdm.2 hndc.1
  have hold' : oldest ∈ s'.contacts := by
    rw [hsc]
    exact List.mem_append_left _ (List.mem_map.mpr ⟨oldest, holdm.1, hkeep⟩)
  -- an id in `othersIds` names an absorbed (primary, link-free) row
  have habsorbed : ∀ {c : Contact}, c ∈ s.contacts →
      c.id ∈ others.map (fun c => c.id) →
      c ∈ others ∧ c.linkPrecedence = .primary ∧ c.linkedId = none := by
    intro c hc hcid
    obtain ⟨r, hr, hrid⟩ := List.mem_map.mp hcid
    have hrp := hmemr r (List.mem_cons_of_mem _ hr)
    have hcr : c = r := h.id_inj c hc r hrp.1 hrid.symm
    subst hcr
    exact ⟨hr, hrp.2, h.primaryNoLink c hrp.1 hrp.2⟩
  rw [ids_cluster_mem hWF' hold' holdm.2]
  constructor
  · rintro (rfl | ⟨c', hc', hc'l, rfl⟩)
    · exact Or.inl ⟨oldest, List.mem_cons_self _ _,
        (ids_cluster_mem h holdm.1 holdm.2).mpr (Or.inl rfl)⟩
    · rw [hsc] at hc'
      rcases List.mem_append.mp hc' with hc' | hc'
      · obtain ⟨c, hc, rfl⟩ := List.mem_map.mp hc'
        rcases rewriteOne_cases s.now oldest.id
            (others.map (fun c => c.id)) c with
          ⟨hin, he⟩ | ⟨-, ⟨v, hv, hvin⟩, he⟩ | ⟨-, -, he⟩
        · obtain ⟨hco, hcp, -⟩ := habsorbed hc hin
          refine Or.inl ⟨c, List.mem_cons_of_mem _ hco,
            (ids_cluster_mem h hc hcp).mpr (Or.inl ?_)⟩
          rw [he]
        · obtain ⟨r, hr, hrid⟩ := List.mem_map.mp hvin
          have hrp := hmemr r (List.mem_cons_of_mem _ hr)
          refine Or.inl ⟨r, List.mem_cons_of_mem _ hr,
            (ids_cluster_mem h hrp.1 hrp.2).mpr (Or.inr ⟨c, hc, ?_, ?_⟩)⟩
          · rw [hv, hrid]
          · rw [he]
        · rw [he] at hc'l ⊢
          exact Or.inl ⟨oldest, List.mem_cons_self _ _,
            (ids_cluster_mem h holdm.1 holdm.2).mpr
              (Or.inr ⟨c, hc, hc'l, rfl⟩)⟩
      · refine Or.inr ⟨?_, (hextl c' hc').2⟩
        intro hext0
        rw [hext0] at hc'
        cases hc'
  · rintro (⟨q, hq, hi⟩ | ⟨hext, rfl⟩)
    · have hqp := hmemr q hq
      rcases (ids_cluster_mem h hqp.1 hqp.2).mp hi with rfl | ⟨c, hc, hcl, rfl⟩
      · rcases List.mem_cons.mp hq with rfl | hqo
        · exact Or.inl rfl
        · -- q absorbed: its demoted row carries q.id, linked to the survivor
          refine Or.inr ⟨{ q with linkedId := some oldest.id
                                  linkPrecedence := .secondary
                                  updatedAt := s.now }, ?_, rfl, rfl⟩
          rw [hsc]
          apply List.mem_append_left
          refine List.mem_map.mpr ⟨q, hqp.1, ?_⟩
          have hqin : q.id ∈ others.map (fun c => c.id) :=
            List.mem_map.mpr ⟨q, hqo, rfl⟩
          simp [rewriteOne, hqin]
      · -- a child of a touched root: relinked (or already linked) to the
        -- survivor, keeping its id
        have hcsec : c.linkPrecedence = .secondary :=
          children_secondary h hqp.1 hc hcl
        have hcnin : c.id ∉ others.map (fun c => c.id) := by
          intro hin
          obtain ⟨-, hcp, -⟩ := habsorbed hc hin
          rw [hcsec] at hcp
          cases hcp
        rcases List.mem_cons.mp hq with heq | hqo
        · -- child of the survivor: untouched
          rw [heq] at hcl
          have hnc : ¬∃ v, c.linkedId = some v ∧
              v ∈ others.map (fun c => c.id) := by
            rintro ⟨v, hv, hvin⟩
            rw [hcl] at hv
            injection hv with hv
            rw [← hv] at hvin
            exact hndc.1 hvin
          refine Or.inr ⟨c, ?_, ?_, rfl⟩
          · rw [hsc]
            apply List.mem_append_left
            refine List.mem_map.mpr ⟨c, hc, ?_⟩
            rcases rewriteOne_cases s.now oldest.id
                (others.map (fun c => c.id)) c with
              ⟨hin, -⟩ | ⟨-, hex, -⟩ | ⟨-, -, he⟩
            · exact absurd hin hcnin
            · exact absurd hex hnc
            · exact he
          · exact hcl
        · -- child of an absorbed primary: relinked to the survivor
          have hqin : q.id ∈ others.map (fun c => c.id) :=
            List.mem_map.mpr ⟨q, hqo, rfl⟩
          refine Or.inr ⟨{ c with linkedId := some oldest.id
                                  updatedAt := s.now }, ?_, rfl, rfl⟩
          rw [hsc]
          apply List.mem_append_left
          refine List.mem_map.mpr ⟨c, hc, ?_⟩
          simp [rewriteOne, hcl, hcnin, hqin]
    · -- the appended secondary
      cases ext with
      | nil => exact absurd rfl hext
      | cons nc rest =>
        have hn := hextl nc (List.mem_cons_self _ _)
        refine Or.inr ⟨nc, ?_, hn.1, hn.2⟩
        rw [hsc]
        exact List.mem_append_right _ (List.mem_cons_self _ _)

/-- C1 counterexample: the claim picks the surviving primary by
`(createdAt, id)`, so with `tieStore` (primaries id 1 and id 2 both
created at 5, id 2 matched directly by the request's email, id 1
reached through its secondary id 3) the survivor should be id 1
(`tieA`), the head of the `(createdAt, id)` sort of the touched roots.
The code sorts the candidate primaries by `createdAt` alone and the
stable sort keeps Set insertion order, so it keeps id 2 (`tieB`)
primary and demotes id 1 to a secondary linked to 2. -/
theorem merge_tie_counterexample :
    WF tieStore ∧
    ((touchedRoots tieStore tieReq).insertionSort leCreatedId).head? =
      some tieA ∧
    contactById (identify tieStore tieReq).1 tieA.id =
      some ⟨1, none, some "b", some 2, .secondary, 5, 10, none⟩ ∧
    contactById (identify tieStore tieReq).1 tieB.id = some tieB := by
  decide

/-- C1 (amended): for a well-formed store whose observation touches at
least two owning primaries of pairwise-distinct `createdAt` (the
original claim's `(createdAt, id)` tie-break fails on equal timestamps
— see the counterexample), `identify` keeps the `(createdAt, id)`-first
touched primary unchanged as the surviving primary, rewrites every
other touched primary to a secondary linked to the survivor, rewrites
every contact previously linked to an absorbed primary to link to the
survivor, and the resulting cluster carries exactly the union of the
merged clusters' contact ids — none lost, none duplicated — together
with the one new secondary (id `nextId`) exactly when the row count
grew because the observation introduced a new value. -/
theorem merge_surviving_primary (s : Store) (req : IdentifyRequest)
    (surv : Contact) (h : WF s)
    (hk : 2 ≤ (touchedRoots s req).length)
    (hdis : (touchedRoots s req).Pairwise
      (fun a b => a.createdAt ≠ b.createdAt))
    (hsurv : ((touchedRoots s req).insertionSort leCreatedId).head? =
      some surv) :
    (contactById (identify s req).1 surv.id = some surv ∧
      surv.linkPrecedence = .primary) ∧
    (∀ q ∈ touchedRoots s req, q ≠ surv →
      contactById (identify s req).1 q.id =
        some { q with linkedId := some surv.id
                      linkPrecedence := .secondary
                      updatedAt := s.now }) ∧
    (∀ c ∈ s.contacts, ∀ q ∈ touchedRoots s req, q ≠ surv →
      c.linkedId = some q.id →
      contactById (identify s req).1 c.id =
        some { c with linkedId := some surv.id, updatedAt := s.now }) ∧
    ((getLinkedContacts (identify s req).1 surv.id).map
      (fun c => c.id)).Nodup ∧
    (∀ i, i ∈ (getLinkedContacts (identify s req).1 surv.id).map
        (fun c => c.id) ↔
      ((∃ q ∈ touchedRoots s req,
          i ∈ (getLinkedContacts s q.id).map (fun c => c.id)) ∨
        ((identify s req).1.contacts.length = s.contacts.length + 1 ∧
          i = s.nextId))) := by
  cases hfind : findContactsByEmailOrPhone s req.email req.phoneNumber with
  | error e =>
    exfalso
    unfold touchedRoots at hk
    rw [hfind] at hk
    simp at hk
  | ok l =>
    have hsubc := candidates_sub hfind
    have hall : ∀ pid ∈ owningPrimaryIds l, ∃ q ∈ s.contacts, q.id = pid ∧
        q.linkPrecedence = .primary :=
      fun pid hpid => owning_id_primary h hsubc hpid
    have hF := roots_spec h hall
    have htre := touchedRoots_eq h hfind hall
    have hlen_tr : (touchedRoots s req).length =
        (owningPrimaryIds l).length := by
      rw [htre]
      exact hF.length_eq.symm
    have hne : l ≠ [] := by
      intro hleq
      rw [hleq] at hlen_tr
      have h0 : owningPrimaryIds ([] : List Contact) = [] := rfl
      rw [h0] at hlen_tr
      simp only [List.length_nil] at hlen_tr
      omega
    have hlen2 : 1 < (owningPrimaryIds l).length := by omega
    obtain ⟨oldest, others, hid_eq, hperm, hsorted, hmemr, hndids, hWFm,
      hkeep⟩ := merge_branch_data h hfind hne hlen2
    have hso : surv = oldest := by
      cases hlex : (touchedRoots s req).insertionSort leCreatedId with
      | nil =>
        rw [hlex] at hsurv
        cases hsurv
      | cons sv tail =>
        rw [hlex] at hsurv
        have hh : sv = surv := by
          have h2 : some sv = some surv := hsurv
          injection h2
        have hlexperm : List.Perm (sv :: tail) (touchedRoots s req) := by
          rw [← hlex]
          exact List.perm_insertionSort _ _
        have hlexsorted : (sv :: tail).Pairwise leCreatedId := by
          rw [← hlex]
          exact List.sorted_insertionSort _ _
        have hsv_mem : sv ∈ touchedRoots s req :=
          hlexperm.subset (List.mem_cons_self _ _)
        have hsv_min : ∀ q ∈ touchedRoots s req,
            sv.createdAt ≤ q.createdAt := by
          intro q hq
          rcases List.mem_cons.mp (hlexperm.mem_iff.mpr hq) with heq | htail
          · subst heq
            exact le_refl _
          · have hle := (List.pairwise_cons.mp hlexsorted).1 q htail
            rcases hle with hlt | ⟨heq2, -⟩
            · exact le_of_lt hlt
            · exact le_of_eq heq2
        have hold_mem : oldest ∈ touchedRoots s req :=
          hperm.subset (List.mem_cons_self _ _)
        have hold_min : ∀ q ∈ touchedRoots s req,
            oldest.createdAt ≤ q.createdAt := by
          intro q hq
          rcases List.mem_cons.mp (hperm.mem_iff.mpr hq) with heq | hot
          · subst heq
            exact le_refl _
          · exact (List.pairwise_cons.mp hsorted).1 q hot
        rw [← hh]
        exact created_inj_of_pairwise hdis sv hsv_mem oldest hold_mem
          (le_antisymm (hsv_min oldest hold_mem) (hold_min sv hsv_mem))
    subst hso
    have hndc : surv.id ∉ others.map (fun c => c.id) ∧
        (others.map (fun c => c.id)).Nodup := by
      rw [List.map_cons] at hndids
      exact List.nodup_cons.mp hndids
    have holdm := hmemr surv (List.mem_cons_self _ _)
    have hWF' : WF (identify s req).1 := identify_preserves_WF s req h
    have htr_mem : ∀ q, q ∈ touchedRoots s req ↔ q ∈ surv :: others :=
      fun q => hperm.mem_iff.symm
    have hq_others : ∀ q ∈ touchedRoots s req, q ≠ surv → q ∈ others := by
      intro q hq hne'
      rcases List.mem_cons.mp ((htr_mem q).mp hq) with heq | ho
      · exact absurd heq hne'
      · exact ho
    rw [hid_eq] at hWF' ⊢
    unfold extendResult at hWF' ⊢
    by_cases hni : hasNewInfo req.email req.phoneNumber
        (getLinkedContacts (mergedStore s surv.id
          (others.map (fun c => c.id))) surv.id) = true
    · rw [if_pos hni] at hWF' ⊢
      simp only [createContact] at hWF' ⊢
      have hsold : surv ∈ (mergedStore s surv.id
          (others.map (fun c => c.id))).contacts :=
        List.mem_map.mpr ⟨surv, holdm.1, hkeep⟩
      have hsold' : surv ∈ (mergedStore s surv.id
          (others.map (fun c => c.id))).contacts ++
          [⟨s.nextId, orNull req.phoneNumber, orNull req.email,
            some surv.id, .secondary, s.now, s.now, none⟩] :=
        List.mem_append_left _ hsold
      have hgrow : ((mergedStore s surv.id
          (others.map (fun c => c.id))).contacts ++
          ([⟨s.nextId, orNull req.phoneNumber, orNull req.email,
            some surv.id, .secondary, s.now, s.now, none⟩] :
            List Contact)).length =
          s.contacts.length + 1 := by
        rw [List.length_append, List.length_singleton]
        unfold mergedStore
        simp
      refine ⟨⟨contactById_eq hWF' hsold', holdm.2⟩, ?_, ?_, ?_, ?_⟩
      · intro q hq hne'
        have hqo := hq_others q hq hne'
        have hqp := hmemr q (List.mem_cons_of_mem _ hqo)
        have hqin : q.id ∈ others.map (fun c => c.id) :=
          List.mem_map.mpr ⟨q, hqo, rfl⟩
        have hmm : ({ q with linkedId := some surv.id, linkPrecedence := .secondary, updatedAt := s.now } : Contact) ∈
            (mergedStore s surv.id
              (others.map (fun c => c.id))).contacts ++
            ([⟨s.nextId, orNull req.phoneNumber, orNull req.email,
              some surv.id, .secondary, s.now, s.now, none⟩] :
              List Contact) :=
          List.mem_append_left _
            (List.mem_map.mpr ⟨q, hqp.1, by simp [rewriteOne, hqin]⟩)
        exact contactById_eq hWF' hmm
      · intro c hc q hq hne' hcl
        have hqo := hq_others q hq hne'
        have hqp := hmemr q (List.mem_cons_of_mem _ hqo)
        have hqin : q.id ∈ others.map (fun c => c.id) :=
          List.mem_map.mpr ⟨q, hqo, rfl⟩
        have hcsec : c.linkPrecedence = .secondary :=
          children_secondary h hqp.1 hc hcl
        have hcnin : c.id ∉ others.map (fun c => c.id) := by
          intro hin
          obtain ⟨r, hr, hrid⟩ := List.mem_map.mp hin
          have hrp := hmemr r (List.mem_cons_of_mem _ hr)
          have hcr : c = r := h.id_inj c hc r hrp.1 hrid.symm
          rw [hcr, hrp.2] at hcsec
          cases hcsec
        have hmm : ({ c with linkedId := some surv.id, updatedAt := s.now } : Contact) ∈
            (mergedStore s surv.id
              (others.map (fun c => c.id))).contacts ++
            ([⟨s.nextId, orNull req.phoneNumber, orNull req.email,
              some surv.id, .secondary, s.now, s.now, none⟩] :
              List Contact) :=
          List.mem_append_left _
            (List.mem_map.mpr ⟨c, hc,
              by simp [rewriteOne, hcl, hcnin, hqin]⟩)
        exact contactById_eq hWF' hmm
      · exact ids_cluster_nodup hWF' hsold' holdm.2
      · intro i
        rw [merged_cluster_ids h hmemr hndids hWF' rfl
          (by intro nc h0
              rw [List.mem_singleton] at h0
              subst h0
              exact ⟨rfl, rfl⟩) i]
        apply or_congr
        · constructor
          · rintro ⟨q, hqm, hq⟩
            exact ⟨q, (htr_mem q).mpr hqm, hq⟩
          · rintro ⟨q, hqm, hq⟩
            exact ⟨q, (htr_mem q).mp hqm, hq⟩
        · constructor
          · rintro ⟨-, hi⟩
            exact ⟨hgrow, hi⟩
          · rintro ⟨-, hi⟩
            exact ⟨by simp, hi⟩
    · rw [if_neg hni] at hWF' ⊢
      have hsold : surv ∈ (mergedStore s surv.id
          (others.map (fun c => c.id))).contacts :=
        List.mem_map.mpr ⟨surv, holdm.1, hkeep⟩
      have hnogrow : (mergedStore s surv.id
          (others.map (fun c => c.id))).contacts.length =
          s.contacts.length := by
        unfold mergedStore
        simp
      refine ⟨⟨contactById_eq hWF' hsold, holdm.2⟩, ?_, ?_, ?_, ?_⟩
      · intro q hq hne'
        have hqo := hq_others q hq hne'
        have hqp := hmemr q (List.mem_cons_of_mem _ hqo)
        have hqin : q.id ∈ others.map (fun c => c.id) :=
          List.mem_map.mpr ⟨q, hqo, rfl⟩
        have hmm : ({ q with linkedId := some surv.id, linkPrecedence := .secondary, updatedAt := s.now } : Contact) ∈
            (mergedStore s surv.id
              (others.map (fun c => c.id))).contacts :=
          List.mem_map.mpr ⟨q, hqp.1, by simp [rewriteOne, hqin]⟩
        exact contactById_eq hWF' hmm
      · intro c hc q hq hne' hcl
        have hqo := hq_others q hq hne'
        have hqp := hmemr q (List.mem_cons_of_mem _ hqo)
        have hqin : q.id ∈ others.map (fun c => c.id) :=
          List.mem_map.mpr ⟨q, hqo, rfl⟩
        have hcsec : c.linkPrecedence = .secondary :=
          children_secondary h hqp.1 hc hcl
        have hcnin : c.id ∉ others.map (fun c => c.id) := by
          intro hin
          obtain ⟨r, hr, hrid⟩ := List.mem_map.mp hin
          have hrp := hmemr r (List.mem_cons_of_mem _ hr)
          have hcr : c = r := h.id_inj c hc r hrp.1 hrid.symm
          rw [hcr, hrp.2] at hcsec
          cases hcsec
        have hmm : ({ c with linkedId := some surv.id, updatedAt := s.now } : Contact) ∈
            (mergedStore s surv.id
              (others.map (fun c => c.id))).contacts :=
          List.mem_map.mpr ⟨c, hc,
            by simp [rewriteOne, hcl, hcnin, hqin]⟩
        exact contactById_eq hWF' hmm
      · exact ids_cluster_nodup hWF' hsold holdm.2
      · intro i
        rw [merged_cluster_ids h hmemr hndids hWF'
          (List.append_nil _).symm (by rintro nc h0; cases h0) i]
        apply or_congr
        · constructor
          · rintro ⟨q, hqm, hq⟩
            exact ⟨q, (htr_mem q).mpr hqm, hq⟩
          · rintro ⟨q, hqm, hq⟩
            exact ⟨q, (htr_mem q).mp hqm, hq⟩
        · constructor
          · rintro ⟨h0, -⟩
            exact absurd rfl h0
          · rintro ⟨h0, -⟩
            rw [hnogrow] at h0
            omega

/-- Witness for C1: `tornStore` has two touched primaries with distinct
`createdAt` (1 and 2); the merge keeps `tornA` (created first) as the
surviving primary. -/
theorem merge_surviving_primary_witness :
    2 ≤ (touchedRoots tornStore tornReq).length ∧
    (contactById (identify tornStore tornReq).1 tornA.id = some tornA ∧
      tornA.linkPrecedence = .primary) :=
  ⟨by decide,
    (merge_surviving_primary tornStore tornReq tornA (by decide)
      (by decide) (by decide) (by decide)).1⟩

end Identity
